import Mathlib

/-!
Verification of `dev/buildtool/git.py` (armory-io/buildtool): a shallow
embedding of the commit-log parsing, commit normalization, severity
classification, semantic-version model and repository-summary assembly,
together with theorems settling the specification claims.

Python strings are modelled as Lean `String` at data-model boundaries and as
`List Char` inside the text-processing helpers.  Python exceptions are
modelled with `Option` (an unnamed raised error becomes `none`), except for
`SemanticVersion.make`, whose error message is part of a claim and is hence
modelled with `Except String`.
-/

deriving instance DecidableEq for Except

/-! ### Python-style character and string helpers -/

/-- Characters stripped by Python `str.strip()` and matched by the regex
class `\s` (ASCII range): space, tab, newline, carriage return, vertical tab
and form feed. -/
def isPySpace (c : Char) : Bool :=
  c = ' ' || c = '\t' || c = '\n' || c = '\r' || c = '\x0b' || c = '\x0c'

/-- Python `str.rstrip()` on a character list. -/
def pyRstrip (xs : List Char) : List Char :=
  (xs.reverse.dropWhile isPySpace).reverse

/-- Python `str.strip()` on a character list. -/
def pyStrip (xs : List Char) : List Char :=
  pyRstrip (xs.dropWhile isPySpace)

/-- Python `text.split(sep)` for a one-character separator: splits on every
occurrence and keeps empty pieces (the result is never empty). -/
def splitChar (sep : Char) : List Char → List (List Char)
  | [] => [[]]
  | c :: cs =>
    if c = sep then [] :: splitChar sep cs
    else
      match splitChar sep cs with
      | r :: rs => (c :: r) :: rs
      | [] => [[c]]

/-- Python `'\n'.join(lines)` on character lists. -/
def joinLines : List (List Char) → List Char
  | [] => []
  | [l] => l
  | l :: ls => l ++ '\n' :: joinLines ls

/-- First component of Python `text.split(sep, 1)`: everything before the
first occurrence of the separator. -/
def takeUntilChar (sep : Char) (xs : List Char) : List Char :=
  xs.takeWhile (fun c => ¬ c = sep)

/-- Whether `pat` occurs as a contiguous substring of the list. -/
def containsSub (pat : List Char) : List Char → Bool
  | [] => pat.isPrefixOf ([] : List Char)
  | c :: cs => pat.isPrefixOf (c :: cs) || containsSub pat cs

/-- Locate the first occurrence of `m`: returns the text before it and the
text after it, or `none` when `m` does not occur. -/
def findSplit (m : List Char) : List Char → Option (List Char × List Char)
  | [] => if m = [] then some ([], []) else none
  | c :: cs =>
    if m.isPrefixOf (c :: cs) then some ([], (c :: cs).drop m.length)
    else
      match findSplit m cs with
      | some (a, b) => some (c :: a, b)
      | none => none

/-- Fuelled worker for `splitOnMarker` (the fuel keeps the recursion
structural; `xs.length` steps always suffice for a non-empty marker). -/
def splitOnMarkerAux (m : List Char) : Nat → List Char → List (List Char)
  | 0, xs => [xs]
  | fuel + 1, xs =>
    match findSplit m xs with
    | none => [xs]
    | some (a, b) => a :: splitOnMarkerAux m fuel b

/-- Python `text.split(marker)` for a multi-character marker. -/
def splitOnMarker (m : List Char) (xs : List Char) : List (List Char) :=
  splitOnMarkerAux m xs.length xs

/-- `Option`-valued map over a list, failing as soon as `f` fails (models a
Python loop in which any iteration may raise). -/
def mapMOpt (f : α → Option β) : List α → Option (List β)
  | [] => some []
  | a :: l =>
    match f a with
    | none => none
    | some b =>
      match mapMOpt f l with
      | none => none
      | some bs => some (b :: bs)

/-- Decimal digit as a character. -/
def digitToChar : Nat → Char
  | 0 => '0' | 1 => '1' | 2 => '2' | 3 => '3' | 4 => '4'
  | 5 => '5' | 6 => '6' | 7 => '7' | 8 => '8' | _ => '9'

/-- Numeric value of a decimal digit character. -/
def charVal (c : Char) : Nat := c.toNat - '0'.toNat

/-- Fuelled decimal printer (most significant digit first). -/
def natReprAux : Nat → Nat → List Char
  | 0, _ => []
  | fuel + 1, n =>
    if n = 0 then []
    else natReprAux fuel (n / 10) ++ [digitToChar (n % 10)]

/-- Decimal representation of a natural number, as Python `str(n)` /
`'{n}'.format` produce it. -/
def natRepr (n : Nat) : List Char :=
  if n = 0 then ['0'] else natReprAux n n

/-- Value of a most-significant-first decimal digit string. -/
def digitsVal (xs : List Char) : Nat :=
  xs.foldl (fun a c => 10 * a + charVal c) 0

/-! ### Semantic version model (`SemanticVersion` in git.py) -/

/-- `SemanticVersion` namedtuple: `(series_name, major, minor, patch)`. -/
structure SemanticVersion where
  series_name : String
  major : Nat
  minor : Nat
  patch : Nat
deriving DecidableEq, Repr

namespace SemanticVersion

/-- `SemanticVersion.TAG_INDEX`. -/
def TAG_INDEX : Nat := 0
/-- `SemanticVersion.MAJOR_INDEX`. -/
def MAJOR_INDEX : Nat := 1
/-- `SemanticVersion.MINOR_INDEX`. -/
def MINOR_INDEX : Nat := 2
/-- `SemanticVersion.PATCH_INDEX`. -/
def PATCH_INDEX : Nat := 3

/-- One greedy `(\d+)` of `SEMVER_MATCHER`: the maximal non-empty digit run
and the rest. -/
def parseRun (r : List Char) : Option (List Char × List Char) :=
  if r.takeWhile Char.isDigit = [] then none
  else some (r.takeWhile Char.isDigit, r.dropWhile Char.isDigit)

/-- One literal `\.` of `SEMVER_MATCHER`. -/
def parseDot : List Char → Option (List Char)
  | [] => none
  | c :: rest => if c = '.' then some rest else none

/-- The `(\d+)\.(\d+)\.(\d+)` tail of `SEMVER_MATCHER` starting after the
dash: three maximal non-empty digit runs separated by dots, with arbitrary
trailing text allowed (the regex has no end anchor). -/
def mvsAfterDash (r : List Char) : Option (Nat × Nat × Nat) :=
  (parseRun r).bind fun p1 =>
    (parseDot p1.2).bind fun r2 =>
      (parseRun r2).bind fun p2 =>
        (parseDot p2.2).bind fun r4 =>
          (parseRun r4).bind fun p3 =>
            some (digitsVal p1.1, digitsVal p2.1, digitsVal p3.1)

/-- The `-(\d+)\.(\d+)\.(\d+)` part of `SEMVER_MATCHER`. -/
def matchVersionSuffix : List Char → Option (Nat × Nat × Nat)
  | [] => none
  | c :: r => if c = '-' then mvsAfterDash r else none

/-- One candidate split of `SEMVER_MATCHER`'s backtracking search: group 1 is
`s.take k` (the regex `(.+)` cannot be empty or contain a newline), followed
by the dash and the numeric suffix. -/
def semverSplitAt (s : List Char) (k : Nat) : Option SemanticVersion :=
  if k = 0 then none
  else if (s.take k).any (fun c => c = '\n') then none
  else
    (matchVersionSuffix (s.drop k)).map fun t =>
      ⟨String.mk (s.take k), t.1, t.2.1, t.2.2⟩

/-- Greedy backtracking of `(.+)`: try the longest group 1 first. -/
def semverSearchAux (s : List Char) : Nat → Option SemanticVersion
  | 0 => none
  | k + 1 =>
    match semverSplitAt s (k + 1) with
    | some v => some v
    | none => semverSearchAux s k

/-- `SEMVER_MATCHER.match(tag)`: the compiled pattern
`(.+)-(\d+)\.(\d+)\.(\d+)` anchored at the start only. -/
def semverMatch (s : List Char) : Option SemanticVersion :=
  semverSearchAux s s.length

/-- `SemanticVersion.make(tag)`: parse a tag, raising
`ValueError('Malformed tag "{tag}"')` when the pattern does not match. -/
def make (tag : String) : Except String SemanticVersion :=
  match semverMatch tag.data with
  | some v => Except.ok v
  | none => Except.error ("Malformed tag \"" ++ tag ++ "\"")

/-- `SemanticVersion.to_version()`. -/
def to_version (v : SemanticVersion) : String :=
  String.mk (natRepr v.major ++ '.' :: natRepr v.minor ++ '.' :: natRepr v.patch)

/-- `SemanticVersion.to_tag()`. -/
def to_tag (v : SemanticVersion) : String :=
  String.mk (v.series_name.data ++ '-' :: v.to_version.data)

/-- `SemanticVersion.next(at_index)`: bump the component at the given index,
zeroing the less significant ones; an unsupported index raises (`none`). -/
def next (v : SemanticVersion) (at_index : Nat) : Option SemanticVersion :=
  if at_index = PATCH_INDEX then
    some ⟨v.series_name, v.major, v.minor, v.patch + 1⟩
  else if at_index = MINOR_INDEX then
    some ⟨v.series_name, v.major, v.minor + 1, 0⟩
  else if at_index = MAJOR_INDEX then
    some ⟨v.series_name, v.major + 1, 0, 0⟩
  else none

end SemanticVersion

/-! ### Commit tags (`CommitTag` in git.py) -/

/-- `CommitTag` namedtuple: `(commit_id, tag, version)`.  The `version`
field holds `LooseVersion(tag)` in the source; no modelled operation ever
inspects it (all comparisons are on `tag`), so it is carried as the
originating tag text. -/
structure CommitTag where
  commit_id : String
  tag : String
  version : String
deriving DecidableEq, Repr

namespace CommitTag

/-- `CommitTag.make(ref_line)`: split a `git show-ref --tags` line on spaces;
the commit id is token 0 and the tag is the last `/`-separated part of token
1.  A line without a second token raises `IndexError` (`none`). -/
def make (ref_line : String) : Option CommitTag :=
  match splitChar ' ' ref_line.data with
  | _ :: t1 :: _ =>
    match (splitChar '/' t1).getLast? with
    | some tagPart => some ⟨String.mk (takeUntilChar ' ' ref_line.data),
                            String.mk tagPart, String.mk tagPart⟩
    | none => none
  | _ => none

end CommitTag

/-- Python string `<` on character lists: lexicographic by code point. -/
def charListLt : List Char → List Char → Bool
  | [], [] => false
  | [], _ :: _ => true
  | _ :: _, [] => false
  | a :: as, b :: bs =>
    if a < b then true else if b < a then false else charListLt as bs

/-- Python `a < b` on strings. -/
def strLtb (a b : String) : Bool := charListLt a.data b.data

/-- Python `a <= b` on strings. -/
def strLeb (a b : String) : Bool := !(strLtb b a)

/-- Stable insertion into a tag-ascending list (`CommitTag.__lt__` compares
the `tag` texts lexicographically). -/
def insertTag (ct : CommitTag) : List CommitTag → List CommitTag
  | [] => [ct]
  | d :: ds => if strLeb ct.tag d.tag then ct :: d :: ds else d :: insertTag ct ds

/-- Python `sorted(commit_tags)`: ascending by tag text. -/
def sortTags (l : List CommitTag) : List CommitTag :=
  l.foldr insertTag []

/-! ### Commit messages (`CommitMessage` in git.py) -/

/-- `CommitMessage` namedtuple: `(commit_id, author, date, message)`. -/
structure CommitMessage where
  commit_id : String
  author : String
  date : String
  message : String
deriving DecidableEq, Repr

namespace CommitMessage

/-- Result of `_MEDIUM_PRETTY_COMMIT_MATCHER.match(entry)` on the pattern
`(.+)\nAuthor: *(.+)\nDate: *(.*)\n`: the three groups plus the remainder of
the entry after `match.end(3)` (which starts with the newline that closed the
`Date` line). -/
def mediumMatch (entry : List Char) : Option (List Char × List Char × List Char × List Char) :=
  let line1 := entry.takeWhile (fun c => ¬ c = '\n')
  if line1 = [] then none
  else
    match entry.drop line1.length with
    | '\n' :: r1 =>
      if ("Author:".data).isPrefixOf r1 then
        let afterA := r1.drop 7
        let spA := afterA.takeWhile (fun c => c = ' ')
        let restA := afterA.drop spA.length
        let aline := restA.takeWhile (fun c => ¬ c = '\n')
        -- backtracking of `: *(.+)`: when the rest of the line is empty the
        -- greedy ` *` gives one space back to `(.+)`
        let author? : Option (List Char × List Char) :=
          if aline = [] then
            if spA = [] then none else some ([' '], restA)
          else some (aline, restA.drop aline.length)
        match author? with
        | none => none
        | some (author, afterAuthor) =>
          match afterAuthor with
          | '\n' :: r2 =>
            if ("Date:".data).isPrefixOf r2 then
              let afterD := r2.drop 5
              let spD := afterD.takeWhile (fun c => c = ' ')
              let restD := afterD.drop spD.length
              let dline := restD.takeWhile (fun c => ¬ c = '\n')
              match restD.drop dline.length with
              | '\n' :: r3 => some (line1, author, dline, '\n' :: r3)
              | _ => none
            else none
          | _ => none
      else none
    | _ => none

/-- Trim the blank lines from the beginning and the end of a line list (the
two `while` loops of `CommitMessage.make`). -/
def trimBlankLines (lines : List (List Char)) : List (List Char) :=
  (((lines.dropWhile List.isEmpty).reverse).dropWhile List.isEmpty).reverse

/-- `CommitMessage.make(entry)`: match the medium-format header and build the
message from the remaining text with each line right-stripped and the leading
and trailing blank lines removed.  A header mismatch raises (unnamed
`AttributeError` on `None.end`), modelled as `none`. -/
def make (entry : String) : Option CommitMessage :=
  match mediumMatch entry.data with
  | none => none
  | some (cid, author, date, rest) =>
    let lines := (splitChar '\n' rest).map pyRstrip
    some ⟨String.mk cid, String.mk author, String.mk date,
          String.mk (joinLines (trimBlankLines lines))⟩

/-- The per-commit blocks of `make_list_from_result`:
`('\n' + response_text.strip()).split('\ncommit ')[1:]`. -/
def logEntries (response_text : String) : List (List Char) :=
  (splitOnMarker ("\ncommit ").data ('\n' :: pyStrip response_text.data)).drop 1

/-- `CommitMessage.make_list_from_result(response_text)`: parse every block;
a failure in any block propagates (aborting the whole call). -/
def make_list_from_result (response_text : String) : Option (List CommitMessage) :=
  mapMOpt (fun e => make (String.mk e)) (logEntries response_text)

end CommitMessage

namespace CommitMessage

/-- Attempt `_EMBEDDED_COMMIT_MATCHER` at one position (which must be a line
start, because of the `^` anchors): `( *)commit [a-f0-9]+\n` then
`^\s*Author: .+\n` then `^\s*Date:   .+\n`.  Returns the indentation length
(the width of group 1) on success. -/
def matchEmbeddedAt (xs : List Char) : Option Nat :=
  let sp := xs.takeWhile (fun c => c = ' ')
  let r0 := xs.drop sp.length
  if ("commit ".data).isPrefixOf r0 then
    let r1 := r0.drop 7
    let hex := r1.takeWhile (fun c => c.isDigit || ('a' ≤ c && c ≤ 'f'))
    if hex = [] then none
    else
      match r1.drop hex.length with
      | '\n' :: r2 =>
        let r3 := r2.dropWhile isPySpace
        if ("Author: ".data).isPrefixOf r3 then
          let aline := (r3.drop 8).takeWhile (fun c => ¬ c = '\n')
          if aline = [] then none
          else
            match (r3.drop 8).drop aline.length with
            | '\n' :: r4 =>
              let r5 := r4.dropWhile isPySpace
              if ("Date:   ".data).isPrefixOf r5 then
                let dline := (r5.drop 8).takeWhile (fun c => ¬ c = '\n')
                if dline = [] then none
                else
                  match (r5.drop 8).drop dline.length with
                  | '\n' :: _ => some sp.length
                  | _ => none
              else none
            | _ => none
        else none
      | _ => none
  else none

/-- Worker for `_EMBEDDED_COMMIT_MATCHER.search`: scan every position, but
only positions at the start of a line can match.  Returns
`(found.start(1), |found.group(1)|)` of the leftmost match. -/
def embeddedSearchAux : List Char → Nat → Bool → Option (Nat × Nat)
  | xs, pos, atLineStart =>
    match
      (if atLineStart then matchEmbeddedAt xs else none) with
    | some ind => some (pos, ind)
    | none =>
      match xs with
      | [] => none
      | c :: cs => embeddedSearchAux cs (pos + 1) (c = '\n')

/-- `_EMBEDDED_COMMIT_MATCHER.search(text)`. -/
def embeddedSearch (xs : List Char) : Option (Nat × Nat) :=
  embeddedSearchAux xs 0 true

/-- The dedenting loop of `_unpack_embedded_commits`: each line either starts
with the `off`-space indentation prefix (strip `off` characters), or is blank
(keep), or is inconsistent — `none` models the warning-and-keep-original
path (`pruned_lines = []` plus `break`), not an exception. -/
def pruneLines (off : Nat) : List (List Char) → Option (List (List Char))
  | [] => some []
  | l :: ls =>
    if (List.replicate off ' ').isPrefixOf l then
      match pruneLines off ls with
      | some r => some (l.drop off :: r)
      | none => none
    else if l = [] then
      match pruneLines off ls with
      | some r => some (l :: r)
      | none => none
    else none

/-- The body of `_unpack_embedded_commits` for a single record: search for an
embedded commit header; on success dedent from the match onward and re-parse
(text before the match is dropped with only a log line); on inconsistent
indentation keep the original record.  The re-parse may raise (`none`). -/
def unpackEmbeddedOne (cm : CommitMessage) : Option (List CommitMessage) :=
  match embeddedSearch cm.message.data with
  | none => some [cm]
  | some (start, off) =>
    let textLines := splitChar '\n' (cm.message.data.drop start)
    match pruneLines off textLines with
    | none => some [cm]
    | some pls =>
      if pls = [] then some []
      else make_list_from_result (String.mk (joinLines pls))

/-- `CommitMessage._unpack_embedded_commits(msg_list)`. -/
def unpack_embedded_commits : List CommitMessage → Option (List CommitMessage)
  | [] => some []
  | m :: rest =>
    match unpackEmbeddedOne m, unpack_embedded_commits rest with
    | some hd, some tl => some (hd ++ tl)
    | _, _ => none

/-- Scan for the `\): .+` continuation of the lazy scope `.+?` (a close
paren followed by a colon, a space and at least one character; lazy
backtracking means any later close paren may serve). -/
def summaryScopeAux : List Char → Bool
  | ')' :: ':' :: ' ' :: _ :: _ => true
  | _ :: rest => summaryScopeAux rest
  | [] => false

/-- The `\(.+?\): .+` tail of `_EMBEDDED_SUMMARY_MATCHER` after the open
paren: at least one scope character, then `summaryScopeAux`. -/
def summaryScopeScan : List Char → Bool
  | [] => false
  | _ :: rest => summaryScopeAux rest

/-- `_EMBEDDED_SUMMARY_MATCHER.match(line)` for a single line (no newline in
`line`): `^\s*(?:\*\s*)?[a-z]+\(.+?\): .+`. -/
def summaryMatchLine (l : List Char) : Bool :=
  let r1 := l.dropWhile isPySpace
  let r2 :=
    match r1 with
    | '*' :: rest => rest.dropWhile isPySpace
    | _ => r1
  let letters := r2.takeWhile (fun c => 'a' ≤ c && c ≤ 'z')
  if letters = [] then false
  else
    match r2.drop letters.length with
    | '(' :: r4 => summaryScopeScan r4
    | _ => false

end CommitMessage

namespace CommitMessage

/-- The scanning loop of `_unpack_embedded_summaries` for one record.
`pending` holds `lines[prev:index]` (or `lines[0:index]` while `prev = -1`,
i.e. `started = false`); a matching line emits the pending block only once a
previous match exists, and the loop epilogue always emits `lines[prev:]`
(with `prev` clamped to `0`). -/
def summaryAux (cid author date : String) :
    List (List Char) → Bool → List (List Char) → List CommitMessage
  | pending, _, [] =>
    [⟨cid, author, date, String.mk (pyRstrip (joinLines pending))⟩]
  | pending, started, l :: ls =>
    if summaryMatchLine l then
      if started then
        ⟨cid, author, date, String.mk (pyRstrip (joinLines pending))⟩ ::
          summaryAux cid author date [l] true ls
      else summaryAux cid author date [l] true ls
    else summaryAux cid author date (pending ++ [l]) started ls

/-- `CommitMessage._unpack_embedded_summaries(msg_list)`. -/
def unpack_embedded_summaries (msg_list : List CommitMessage) : List CommitMessage :=
  msg_list.foldr
    (fun cm acc =>
      summaryAux cm.commit_id cm.author cm.date [] false
        (splitChar '\n' cm.message.data) ++ acc) []

/-- `CommitMessage.normalize_message_list(msg_list)`: pass A (embedded
commits) then pass B (embedded summaries). -/
def normalize_message_list (msg_list : List CommitMessage) : Option (List CommitMessage) :=
  match unpack_embedded_commits msg_list with
  | none => none
  | some l => some (unpack_embedded_summaries l)

/-! #### Severity classifier -/

/-- A compiled regex as consumed by `determine_semver_implication`: its
`search` returns `match.groups()` (the tuple of captured groups, possibly
empty) or `none` when the pattern does not match. -/
def Pattern : Type := String → Option (List String)

/-- Match `(?:fix|...)[\(:].*` at the position after the optional leading
whitespace and `\*\s+` marker of a `DEFAULT_*_REGEXS` line; `kws` are the
alternation branches in regex order.  The captured group runs from the
keyword to the end of the line. -/
def tryKeywords : List (List Char) → List Char → Option (List Char)
  | [], _ => none
  | kw :: rest, r2 =>
    if kw.isPrefixOf r2 &&
        ((r2.drop kw.length).head?.elim false (fun c => c = '(' || c = ':')) then
      some r2
    else tryKeywords rest r2

/-- One line of a `DEFAULT_MINOR_REGEXS`/`DEFAULT_PATCH_REGEXS` pattern:
`^\s*(?:\*\s+)?((?:kw|...)[\(:].*)`. -/
def keywordLineMatch (kws : List (List Char)) (l : List Char) : Option (List Char) :=
  let r1 := l.dropWhile isPySpace
  match r1 with
  | '*' :: rest =>
    if rest.head?.elim false isPySpace then tryKeywords kws (rest.dropWhile isPySpace)
    else none
  | _ => tryKeywords kws r1

/-- First line of the text on which `f` produces a capture. -/
def firstLineCapture (f : List Char → Option (List Char)) :
    List (List Char) → Option (List Char)
  | [] => none
  | l :: ls =>
    match f l with
    | some g => some g
    | none => firstLineCapture f ls

/-- A keyword rule of `DEFAULT_MINOR_REGEXS` / `DEFAULT_PATCH_REGEXS` as a
`Pattern` (`re.MULTILINE` search: try each line). -/
def keywordPattern (kws : List (List Char)) : Pattern :=
  fun s =>
    match firstLineCapture (keywordLineMatch kws) (splitChar '\n' s.data) with
    | some g => some [String.mk g]
    | none => none

/-- The `DEFAULT_MAJOR_REGEXS` rule `^\s*(.*?BREAKING CHANGE.*)` as a
`Pattern`: matches when some line contains `BREAKING CHANGE`; the group is
that line without its leading whitespace. -/
def breakingPattern : Pattern :=
  fun s =>
    match
      firstLineCapture
        (fun l =>
          if containsSub ("BREAKING CHANGE".data) l then some (l.dropWhile isPySpace)
          else none)
        (splitChar '\n' s.data) with
    | some g => some [String.mk g]
    | none => none

/-- `CommitMessage.DEFAULT_PATCH_REGEXS`. -/
def DEFAULT_PATCH_REGEXS : List Pattern :=
  [keywordPattern ["fix".data, "bug".data, "docs".data, "doc".data, "test".data]]

/-- `CommitMessage.DEFAULT_MINOR_REGEXS`. -/
def DEFAULT_MINOR_REGEXS : List Pattern :=
  [keywordPattern
    ["feat".data, "feature".data, "chore".data, "refactor".data,
     "perf".data, "config".data]]

/-- `CommitMessage.DEFAULT_MAJOR_REGEXS`. -/
def DEFAULT_MAJOR_REGEXS : List Pattern :=
  [breakingPattern]

/-- The nested `is_compliant(spec)` of `determine_semver_implication`: the
first matcher that matches returns its group tuple (even an empty one); an
empty spec list yields `None`. -/
def is_compliant (spec : List Pattern) (text : String) : Option (List String) :=
  match spec with
  | [] => none
  | p :: rest =>
    match p text with
    | some gs => some gs
    | none => is_compliant rest text

/-- Python truthiness of the `reason` returned by `is_compliant`: a group
tuple is truthy exactly when it is non-empty. -/
def truthyGroups : Option (List String) → Bool
  | some (_ :: _) => true
  | _ => false

/-- `CommitMessage.determine_semver_implication(...)`: evaluate the MAJOR,
MINOR and PATCH rule sets in that order against the stripped message; the
first truthy result wins, otherwise the default index is returned. -/
def determine_semver_implication (cm : CommitMessage)
    (major_regexs minor_regexs patch_regexs : List Pattern)
    (default_semver_index : Nat) : Nat :=
  let text := String.mk (pyStrip cm.message.data)
  if truthyGroups (is_compliant major_regexs text) then SemanticVersion.MAJOR_INDEX
  else if truthyGroups (is_compliant minor_regexs text) then SemanticVersion.MINOR_INDEX
  else if truthyGroups (is_compliant patch_regexs text) then SemanticVersion.PATCH_INDEX
  else default_semver_index

/-- `CommitMessage.determine_semver_implication_on_list(...)`: `None` for an
empty list, else the minimum (most significant index) over the per-message
classifications, folded from `PATCH_INDEX + 1`. -/
def determine_semver_implication_on_list (msg_list : List CommitMessage)
    (major_regexs minor_regexs patch_regexs : List Pattern)
    (default_semver_index : Nat) : Option Nat :=
  if msg_list = [] then none
  else
    some (msg_list.foldl
      (fun msi cm =>
        min msi
          (determine_semver_implication cm major_regexs minor_regexs patch_regexs
            default_semver_index))
      (SemanticVersion.PATCH_INDEX + 1))

end CommitMessage

/-! ### Repository summary assembly (`GitRunner` in git.py) -/

/-- `RepositorySummary` namedtuple. -/
structure RepositorySummary where
  commit_id : String
  tag : String
  version : String
  commit_messages : List CommitMessage
deriving DecidableEq, Repr

/-- The raw text that the git subprocess calls of `GitRunner` hand to the
core for one repository: the `show-ref --tags` listing, the HEAD commit id,
the one-line ancestry log of HEAD, and the `-n <count>` medium log of HEAD
as a function of the requested count. -/
structure GitView where
  show_ref_tags : String
  head_id : String
  log_oneline : String
  log_medium : Nat → String

/-- The tag filter `^version-[0-9]+\.[0-9]+\.[0-9]+$` that
`collect_repository_summary` passes to `query_tag_commits` (`$` also matches
just before a single trailing newline). -/
def versionTagMatch (s : String) : Bool :=
  ("version-".data).isPrefixOf s.data &&
    (let r := s.data.drop 8
     let d1 := r.takeWhile Char.isDigit
     let r1 := r.drop d1.length
     !d1.isEmpty &&
       match r1 with
       | '.' :: r2 =>
         let d2 := r2.takeWhile Char.isDigit
         let r3 := r2.drop d2.length
         !d2.isEmpty &&
           match r3 with
           | '.' :: r4 =>
             let d3 := r4.takeWhile Char.isDigit
             let r5 := r4.drop d3.length
             !d3.isEmpty && (r5 = [] || r5 = ['\n'])
           | _ => false
       | _ => false)

/-- `GitRunner.query_tag_commits(git_dir, tag_pattern)`: build a `CommitTag`
from every `show-ref --tags` line (a malformed line raises, aborting the
call), keep those whose tag the pattern matches, and sort them descending. -/
def query_tag_commits (tag_ref_result : String) (tagMatch : String → Bool) :
    Option (List CommitTag) :=
  match mapMOpt (fun l => CommitTag.make (String.mk l))
      (splitChar '\n' tag_ref_result.data) with
  | none => none
  | some commit_tags =>
    some ((sortTags (commit_tags.filter (fun ct => tagMatch ct.tag))).reverse)

/-- The dictionary `id_to_newest_tag` of
`query_local_repository_commits_to_existing_tag_from_id`: iterate the tag
records in ascending tag order, so that for a repeated commit id the
lexicographically greatest tag text wins. -/
def id_to_newest_tag (commit_tags : List CommitTag) : String → Option String :=
  (sortTags commit_tags).foldl
    (fun m ct => fun k => if k = ct.commit_id then some ct.tag else m k)
    (fun _ => none)

/-- The ancestry walk of
`query_local_repository_commits_to_existing_tag_from_id`: scan the one-line
log, counting lines until one whose first token has a truthy tag in the map.
`lastTag` is the `tag` loop variable (a falsy empty-string tag does not stop
the loop but survives it).  An exhausted walk with `tag is None` raises
(`none`). -/
def baselineWalk (idMap : String → Option String) :
    List (List Char) → Nat → Option String → Option (String × Nat)
  | [], count, lastTag =>
    match lastTag with
    | some t => some (t, count)
    | none => none
  | l :: ls, count, _ =>
    match idMap (String.mk (takeUntilChar ' ' l)) with
    | some t =>
      if t = "" then baselineWalk idMap ls (count + 1) (some "")
      else some (t, count)
    | none => baselineWalk idMap ls (count + 1) none

/-- `GitRunner.query_local_repository_commits_to_existing_tag_from_id`:
return the tag at `commit_id` with no messages when HEAD is tagged,
otherwise walk the ancestry for the baseline and parse the medium log of the
commits above it. -/
def query_local_repository_commits_to_existing_tag_from_id
    (commit_id : String) (commit_tags : List CommitTag)
    (log_oneline : String) (log_medium : Nat → String) :
    Option (String × List CommitMessage) :=
  let idMap := id_to_newest_tag commit_tags
  match idMap commit_id with
  | some tag => some (tag, [])
  | none =>
    match baselineWalk idMap (splitChar '\n' log_oneline.data) 0 none with
    | none => none
    | some (tag, count) =>
      match CommitMessage.make_list_from_result (log_medium count) with
      | none => none
      | some messages => some (tag, messages)

/-- `GitRunner.collect_repository_summary(git_dir)`: find the baseline tag
and the pending commit messages, classify the messages (parser output is
passed directly, without `normalize_message_list`), and build the summary
with the successor version when messages are pending. -/
def collect_repository_summary (git : GitView) : Option RepositorySummary :=
  match query_tag_commits git.show_ref_tags versionTagMatch with
  | none => none
  | some all_tags =>
    match query_local_repository_commits_to_existing_tag_from_id
        git.head_id all_tags git.log_oneline git.log_medium with
    | none => none
    | some (tag, msgs) =>
      match SemanticVersion.make tag with
      | Except.error _ => none
      | Except.ok current_semver =>
        if msgs = [] then
          some ⟨git.head_id, tag, current_semver.to_version, msgs⟩
        else
          match CommitMessage.determine_semver_implication_on_list msgs
              CommitMessage.DEFAULT_MAJOR_REGEXS CommitMessage.DEFAULT_MINOR_REGEXS
              CommitMessage.DEFAULT_PATCH_REGEXS SemanticVersion.MINOR_INDEX with
          | none => none
          | some sig =>
            match current_semver.next sig with
            | none => none
            | some next_semver =>
              some ⟨git.head_id, next_semver.to_tag, next_semver.to_version, msgs⟩

/-! ### Claim-side definitions

Executable predicates phrasing the spec's words, used to state claims and
counterexamples; they are deliberately distinct from the source-derived
definitions above. -/

/-- Follows the spec's words: the exact tag grammar
`<series>-<major>.<minor>.<patch>` with a non-empty series and nothing after
the patch digits. -/
def isExactSemverTag (s : String) : Bool :=
  (List.range s.data.length).any fun k =>
    decide (1 ≤ k) &&
      (match s.data.drop k with
       | '-' :: r =>
         let d1 := r.takeWhile Char.isDigit
         !d1.isEmpty &&
           (match r.drop d1.length with
            | '.' :: r2 =>
              let d2 := r2.takeWhile Char.isDigit
              !d2.isEmpty &&
                (match r2.drop d2.length with
                 | '.' :: r3 =>
                   let d3 := r3.takeWhile Char.isDigit
                   !d3.isEmpty && (r3.drop d3.length).isEmpty
                 | _ => false)
            | _ => false)
       | _ => false)

/-- Whether the `-<digits>.<digits>.<digits>` pattern occurs anywhere in the
text (the "numeric-suffix ambiguity" in the spec's words). -/
def containsDashVersion : List Char → Bool
  | [] => false
  | c :: cs => (SemanticVersion.matchVersionSuffix (c :: cs)).isSome || containsDashVersion cs

/-- No position directly after a newline carries the text `commit `. -/
def commitAfterNewlineFree : List Char → Bool
  | [] => true
  | c :: cs =>
    (if c = '\n' then !(("commit ".data).isPrefixOf cs) else true) &&
      commitAfterNewlineFree cs

/-- Follows the spec's words for claim C10: some line of the text begins
with `commit ` (either at the very start or directly after a newline). -/
def hasCommitLineStart (xs : List Char) : Bool :=
  ("commit ".data).isPrefixOf xs || !(commitAfterNewlineFree xs)

/-- Scan worker for `dropToFirstCommit`: walks the text one character at a
time; `atStart` records whether the current position begins a line. -/
def dropToCommitAux : Bool → List Char → List Char
  | _, [] => []
  | atStart, c :: rest =>
    if atStart = true ∧ ("commit ").data.isPrefixOf (c :: rest) = true then c :: rest
    else dropToCommitAux (decide (c = '\n')) rest

/-- Follows the claim's words for C10: the suffix of the text starting at
its first line that begins with `commit ` (the whole text when that is the
first line, empty when no such line exists). -/
def dropToFirstCommit (xs : List Char) : List Char :=
  dropToCommitAux true xs

/-- Some line neither starts with the `off`-space indentation prefix nor is
blank (the inconsistency condition of claim C5). -/
def hasOffendingLine (off : Nat) (lines : List (List Char)) : Bool :=
  lines.any fun l => !((List.replicate off ' ').isPrefixOf l) && !l.isEmpty

/-- Index of the first summary-shaped line. -/
def firstSummaryIndex : List (List Char) → Option Nat
  | [] => none
  | l :: ls =>
    if CommitMessage.summaryMatchLine l then some 0
    else (firstSummaryIndex ls).map (· + 1)

/-- A rule whose underlying regex matches any text containing
`BREAKING CHANGE` but captures no group, as `re.compile('BREAKING CHANGE')`
would: its `match.groups()` is the empty tuple. -/
def noGroupBreakingPattern : CommitMessage.Pattern :=
  fun s => if containsSub ("BREAKING CHANGE".data) s.data then some [] else none

/-! ### Concrete example inputs used by counterexamples and witnesses -/

/-- A repository view whose pending commit bundles two summary lines in one
physical commit: tag `version-1.0.0` sits on ancestor `aaa`, HEAD is `bbb`. -/
def exGitView : GitView where
  show_ref_tags := "aaa refs/tags/version-1.0.0"
  head_id := "bbb"
  log_oneline := "bbb something\naaa base"
  log_medium := fun _ =>
    "commit bbb\nAuthor: Ann\nDate:   2020\n\n    fix(a): one\n    feat(b): two\n"

/-- The single record parsed from `exGitView.log_medium`. -/
def exCompound : CommitMessage :=
  ⟨"bbb", "Ann", "2020", "    fix(a): one\n    feat(b): two"⟩

/-- A record whose message carries an embedded commit block indented by two
spaces followed by an unindented non-blank line. -/
def exInconsistent : CommitMessage :=
  ⟨"id1", "au", "dt", "merge stuff\n  commit abc\n  Author: Bo\n  Date:   2021\nXX"⟩

/-! ### Helper lemmas -/

theorem takeWhile_append_all {α} {p : α → Bool} :
    ∀ (l r : List α), (∀ c ∈ l, p c = true) →
      (l ++ r).takeWhile p = l ++ r.takeWhile p := by
  intro l r h
  induction l with
  | nil => simp
  | cons a t ih =>
    have ha : p a = true := h a (by simp)
    simp only [List.cons_append, List.takeWhile_cons_of_pos ha]
    rw [ih (fun c hc => h c (by simp [hc]))]

theorem dropWhile_append_all {α} {p : α → Bool} :
    ∀ (l r : List α), (∀ c ∈ l, p c = true) →
      (l ++ r).dropWhile p = r.dropWhile p := by
  intro l r h
  induction l with
  | nil => simp
  | cons a t ih =>
    have ha : p a = true := h a (by simp)
    simp only [List.cons_append, List.dropWhile_cons_of_pos ha]
    exact ih (fun c hc => h c (by simp [hc]))

theorem digitToChar_isDigit {d : Nat} (h : d < 10) :
    (digitToChar d).isDigit = true := by
  interval_cases d <;> decide

theorem charVal_digitToChar {d : Nat} (h : d < 10) :
    charVal (digitToChar d) = d := by
  interval_cases d <;> decide

theorem digitsVal_append_singleton (xs : List Char) (c : Char) :
    digitsVal (xs ++ [c]) = 10 * digitsVal xs + charVal c := by
  simp [digitsVal, List.foldl_append]

theorem natReprAux_digits :
    ∀ fuel n, n ≤ fuel → ∀ c ∈ natReprAux fuel n, c.isDigit = true := by
  intro fuel
  induction fuel with
  | zero => intro n _ c hc; simp [natReprAux] at hc
  | succ f ih =>
    intro n hn c hc
    by_cases h0 : n = 0
    · simp [natReprAux, h0] at hc
    · rw [natReprAux, if_neg h0] at hc
      have hdiv : n / 10 ≤ f := by
        have : n / 10 < n := Nat.div_lt_self (Nat.pos_of_ne_zero h0) (by norm_num)
        omega
      rcases List.mem_append.mp hc with h | h
      · exact ih (n / 10) hdiv c h
      · have hc' : c = digitToChar (n % 10) := by simpa using h
        subst hc'
        exact digitToChar_isDigit (Nat.mod_lt _ (by norm_num))

theorem natReprAux_val :
    ∀ fuel n, n ≤ fuel → digitsVal (natReprAux fuel n) = n := by
  intro fuel
  induction fuel with
  | zero => intro n hn; interval_cases n; simp [natReprAux, digitsVal]
  | succ f ih =>
    intro n hn
    by_cases h0 : n = 0
    · simp [natReprAux, h0, digitsVal]
    · rw [natReprAux, if_neg h0, digitsVal_append_singleton]
      have hdiv : n / 10 ≤ f := by
        have : n / 10 < n := Nat.div_lt_self (Nat.pos_of_ne_zero h0) (by norm_num)
        omega
      rw [ih (n / 10) hdiv, charVal_digitToChar (Nat.mod_lt _ (by norm_num))]
      omega

theorem natRepr_digits (n : Nat) : ∀ c ∈ natRepr n, c.isDigit = true := by
  intro c hc
  by_cases h0 : n = 0
  · simp [natRepr, h0] at hc; subst hc; decide
  · rw [natRepr, if_neg h0] at hc
    exact natReprAux_digits n n le_rfl c hc

theorem natRepr_val (n : Nat) : digitsVal (natRepr n) = n := by
  by_cases h0 : n = 0
  · simp [natRepr, h0, digitsVal, charVal]
  · rw [natRepr, if_neg h0]
    exact natReprAux_val n n le_rfl

theorem natRepr_ne_nil (n : Nat) : natRepr n ≠ [] := by
  by_cases h0 : n = 0
  · simp [natRepr, h0]
  · rw [natRepr, if_neg h0]
    intro hnil
    have := natReprAux_val n n le_rfl
    rw [hnil] at this
    simp [digitsVal] at this
    exact h0 this.symm

theorem digit_ne_dash {c : Char} (h : c.isDigit = true) : ¬ c = '-' := by
  intro he; subst he; simp at h

theorem digit_ne_dot {c : Char} (h : c.isDigit = true) : ¬ c = '.' := by
  intro he; subst he; simp at h

theorem string_mk_data (s : String) : String.mk s.data = s := rfl

theorem string_data_ne_nil {s : String} (h : s ≠ "") : s.data ≠ [] := by
  intro hd
  apply h
  cases s with
  | mk data => cases hd; rfl

/-! ### Lemmas about the semantic-version matcher -/

namespace SemanticVersion

theorem mvs_head_dash {l : List Char} {t : Nat × Nat × Nat}
    (h : matchVersionSuffix l = some t) : ∃ r, l = '-' :: r := by
  cases l with
  | nil => simp [matchVersionSuffix] at h
  | cons c r =>
    by_cases hc : c = '-'
    · exact ⟨r, by rw [hc]⟩
    · simp [matchVersionSuffix, hc] at h

theorem mvs_none_of_no_dash {l : List Char} (h : ∀ c ∈ l, ¬ c = '-') :
    matchVersionSuffix l = none := by
  cases l with
  | nil => rfl
  | cons c r =>
    have : ¬ c = '-' := h c (by simp)
    simp [matchVersionSuffix, this]

theorem semverSplitAt_none_of_no_dash {s : List Char} {j : Nat}
    (h : ∀ c ∈ s.drop j, ¬ c = '-') : semverSplitAt s j = none := by
  unfold semverSplitAt
  by_cases hj : j = 0
  · simp [hj]
  · rw [if_neg hj, mvs_none_of_no_dash h]
    simp only [Option.map_none']
    split <;> rfl

theorem semverSearchAux_skip (s : List Char) :
    ∀ K k0, k0 ≤ K → (∀ j, k0 < j → semverSplitAt s j = none) →
      semverSearchAux s K = semverSearchAux s k0 := by
  intro K
  induction K with
  | zero => intro k0 hk _; interval_cases k0; rfl
  | succ K ih =>
    intro k0 hk hnone
    by_cases he : k0 = K + 1
    · rw [he]
    · have hlt : k0 ≤ K := by omega
      rw [semverSearchAux, hnone (K + 1) (by omega)]
      exact ih k0 hlt hnone

theorem semverSearchAux_isSome_of (s : List Char) :
    ∀ K k, k ≤ K → (semverSplitAt s k).isSome →
      (semverSearchAux s K).isSome := by
  intro K
  induction K with
  | zero =>
    intro k hk hs
    interval_cases k
    simp [semverSplitAt] at hs
  | succ K ih =>
    intro k hk hs
    rw [semverSearchAux]
    cases hsplit : semverSplitAt s (K + 1) with
    | some v => simp
    | none =>
      have hkK : k ≤ K := by
        rcases Nat.lt_or_ge k (K + 1) with h | h
        · omega
        · exfalso
          have : k = K + 1 := by omega
          rw [this, hsplit] at hs
          simp at hs
      exact ih k hkK hs

theorem semverSearchAux_some_split (s : List Char) :
    ∀ K v, semverSearchAux s K = some v →
      ∃ k, k ≠ 0 ∧ semverSplitAt s k = some v := by
  intro K
  induction K with
  | zero => intro v h; simp [semverSearchAux] at h
  | succ K ih =>
    intro v h
    rw [semverSearchAux] at h
    cases hsplit : semverSplitAt s (K + 1) with
    | some w =>
      rw [hsplit] at h
      cases h
      exact ⟨K + 1, by omega, hsplit⟩
    | none =>
      rw [hsplit] at h
      exact ih v h

end SemanticVersion

namespace SemanticVersion

theorem parseRun_append_dot {d : List Char} (rest : List Char)
    (hd : d ≠ []) (hdig : ∀ c ∈ d, c.isDigit = true) :
    parseRun (d ++ '.' :: rest) = some (d, '.' :: rest) := by
  have hdot : ('.' : Char).isDigit = false := by decide
  have tw : (d ++ '.' :: rest).takeWhile Char.isDigit = d := by
    rw [takeWhile_append_all _ _ hdig, List.takeWhile_cons_of_neg (by simp [hdot])]
    simp
  have dw : (d ++ '.' :: rest).dropWhile Char.isDigit = '.' :: rest := by
    rw [dropWhile_append_all _ _ hdig, List.dropWhile_cons_of_neg (by simp [hdot])]
  unfold parseRun
  rw [tw, dw, if_neg hd]

theorem parseRun_isSome_append {d rest : List Char} (hd : d ≠ [])
    (hdig : ∀ c ∈ d, c.isDigit = true) : (parseRun (d ++ rest)).isSome := by
  cases d with
  | nil => exact absurd rfl hd
  | cons c t =>
    have hc : c.isDigit = true := hdig c (by simp)
    unfold parseRun
    rw [List.cons_append, List.takeWhile_cons_of_pos hc]
    simp

theorem parseRun_self {d : List Char} (hd : d ≠ [])
    (hdig : ∀ c ∈ d, c.isDigit = true) : parseRun d = some (d, []) := by
  have tw : d.takeWhile Char.isDigit = d := List.takeWhile_eq_self_iff.mpr hdig
  have dw : d.dropWhile Char.isDigit = [] := List.dropWhile_eq_nil_iff.mpr hdig
  unfold parseRun
  rw [tw, dw, if_neg hd]

theorem parseRun_some_decomp {r d r' : List Char} (h : parseRun r = some (d, r')) :
    r = d ++ r' ∧ d ≠ [] ∧ ∀ c ∈ d, c.isDigit = true := by
  unfold parseRun at h
  by_cases he : r.takeWhile Char.isDigit = []
  · rw [if_pos he] at h; cases h
  · rw [if_neg he] at h
    simp only [Option.some.injEq, Prod.mk.injEq] at h
    obtain ⟨hd, hr'⟩ := h
    subst hd
    subst hr'
    exact ⟨(List.takeWhile_append_dropWhile _ _).symm, he,
      fun c hc => List.mem_takeWhile_imp hc⟩

theorem parseDot_cons (rest : List Char) : parseDot ('.' :: rest) = some rest := by
  simp [parseDot]

theorem parseDot_some_decomp {l r : List Char} (h : parseDot l = some r) :
    l = '.' :: r := by
  cases l with
  | nil => cases h
  | cons c rest =>
    simp only [parseDot] at h
    by_cases hc : c = '.'
    · rw [if_pos hc] at h
      cases h
      rw [hc]
    · rw [if_neg hc] at h
      cases h

theorem mvsAfterDash_exact {d1 d2 d3 : List Char}
    (h1 : d1 ≠ []) (hd1 : ∀ c ∈ d1, c.isDigit = true)
    (h2 : d2 ≠ []) (hd2 : ∀ c ∈ d2, c.isDigit = true)
    (h3 : d3 ≠ []) (hd3 : ∀ c ∈ d3, c.isDigit = true) :
    mvsAfterDash (d1 ++ '.' :: (d2 ++ '.' :: d3)) =
      some (digitsVal d1, digitsVal d2, digitsVal d3) := by
  simp only [mvsAfterDash, parseRun_append_dot _ h1 hd1, parseDot_cons,
    parseRun_append_dot _ h2 hd2, parseRun_self h3 hd3, Option.some_bind]

theorem mvsAfterDash_isSome {d1 d2 d3 rest : List Char}
    (h1 : d1 ≠ []) (hd1 : ∀ c ∈ d1, c.isDigit = true)
    (h2 : d2 ≠ []) (hd2 : ∀ c ∈ d2, c.isDigit = true)
    (h3 : d3 ≠ []) (hd3 : ∀ c ∈ d3, c.isDigit = true) :
    (mvsAfterDash (d1 ++ '.' :: (d2 ++ '.' :: (d3 ++ rest)))).isSome := by
  obtain ⟨p3, hp3⟩ := Option.isSome_iff_exists.mp (@parseRun_isSome_append d3 rest h3 hd3)
  simp only [mvsAfterDash, parseRun_append_dot _ h1 hd1, parseDot_cons,
    parseRun_append_dot _ h2 hd2, hp3, Option.some_bind, Option.isSome_some]

theorem mvsAfterDash_some_decomp {r : List Char} {t : Nat × Nat × Nat}
    (h : mvsAfterDash r = some t) :
    ∃ d1 d2 d3 rest : List Char,
      r = d1 ++ '.' :: (d2 ++ '.' :: (d3 ++ rest)) ∧
      d1 ≠ [] ∧ d2 ≠ [] ∧ d3 ≠ [] ∧
      (∀ c ∈ d1, c.isDigit = true) ∧ (∀ c ∈ d2, c.isDigit = true) ∧
      (∀ c ∈ d3, c.isDigit = true) := by
  unfold mvsAfterDash at h
  simp only [Option.bind_eq_some] at h
  obtain ⟨⟨d1, r1⟩, hp1, r2, hdot1, ⟨d2, r3⟩, hp2, r4, hdot2, ⟨d3, r5⟩, hp3, -⟩ := h
  obtain ⟨he1, hn1, hg1⟩ := parseRun_some_decomp hp1
  have hd1 : r1 = '.' :: r2 := parseDot_some_decomp hdot1
  obtain ⟨he2, hn2, hg2⟩ := parseRun_some_decomp hp2
  have hd2 : r3 = '.' :: r4 := parseDot_some_decomp hdot2
  obtain ⟨he3, hn3, hg3⟩ := parseRun_some_decomp hp3
  refine ⟨d1, d2, d3, r5, ?_, hn1, hn2, hn3, hg1, hg2, hg3⟩
  rw [he1, hd1, he2, hd2, he3]

end SemanticVersion

namespace SemanticVersion

theorem mvs_some_decomp {l : List Char} {t : Nat × Nat × Nat}
    (h : matchVersionSuffix l = some t) :
    ∃ r, l = '-' :: r ∧ mvsAfterDash r = some t := by
  cases l with
  | nil => cases h
  | cons c r =>
    simp only [matchVersionSuffix] at h
    by_cases hc : c = '-'
    · rw [if_pos hc] at h
      exact ⟨r, by rw [hc], h⟩
    · rw [if_neg hc] at h
      cases h

theorem semverSplitAt_some_decomp {s : List Char} {k : Nat} {v : SemanticVersion}
    (h : semverSplitAt s k = some v) :
    ∃ series d1 d2 d3 rest : List Char,
      s = series ++ '-' :: (d1 ++ '.' :: (d2 ++ '.' :: (d3 ++ rest))) ∧
      series ≠ [] ∧ '\n' ∉ series ∧ d1 ≠ [] ∧ d2 ≠ [] ∧ d3 ≠ [] ∧
      (∀ c ∈ d1, c.isDigit = true) ∧ (∀ c ∈ d2, c.isDigit = true) ∧
      (∀ c ∈ d3, c.isDigit = true) := by
  unfold semverSplitAt at h
  by_cases hk : k = 0
  · rw [if_pos hk] at h; cases h
  · rw [if_neg hk] at h
    by_cases hany : (s.take k).any (fun c => c = '\n') = true
    · rw [if_pos hany] at h; cases h
    · rw [if_neg hany] at h
      rw [Option.map_eq_some'] at h
      obtain ⟨t, hmvs, -⟩ := h
      obtain ⟨r, hdrop, hafter⟩ := mvs_some_decomp hmvs
      obtain ⟨d1, d2, d3, rest, hr, hn1, hn2, hn3, hg1, hg2, hg3⟩ :=
        mvsAfterDash_some_decomp hafter
      refine ⟨s.take k, d1, d2, d3, rest, ?_, ?_, ?_, hn1, hn2, hn3, hg1, hg2, hg3⟩
      · conv_lhs => rw [← List.take_append_drop k s]
        rw [hdrop, hr]
      · intro htk
        rcases List.take_eq_nil_iff.mp htk with h0 | hs0
        · exact hk h0
        · rw [hs0] at hdrop; simp at hdrop
      · intro hmem
        exact hany (List.any_eq_true.mpr ⟨'\n', hmem, by simp⟩)

theorem semverSplitAt_isSome_of_decomp {series d1 d2 d3 rest : List Char}
    (hser : series ≠ []) (hnl : '\n' ∉ series)
    (h1 : d1 ≠ []) (hg1 : ∀ c ∈ d1, c.isDigit = true)
    (h2 : d2 ≠ []) (hg2 : ∀ c ∈ d2, c.isDigit = true)
    (h3 : d3 ≠ []) (hg3 : ∀ c ∈ d3, c.isDigit = true) :
    (semverSplitAt (series ++ '-' :: (d1 ++ '.' :: (d2 ++ '.' :: (d3 ++ rest))))
      series.length).isSome := by
  unfold semverSplitAt
  have hk : series.length ≠ 0 := fun h0 => hser (List.length_eq_zero.mp h0)
  rw [if_neg hk, List.take_left, List.drop_left]
  have hany : ¬ (series.any (fun c => c = '\n') = true) := by
    rw [List.any_eq_true]
    rintro ⟨c, hc, hceq⟩
    simp at hceq
    exact hnl (hceq ▸ hc)
  rw [if_neg hany]
  simp only [matchVersionSuffix, if_pos rfl]
  obtain ⟨t, ht⟩ := Option.isSome_iff_exists.mp
    (@mvsAfterDash_isSome d1 d2 d3 rest h1 hg1 h2 hg2 h3 hg3)
  rw [ht]
  rfl

theorem to_tag_data (v : SemanticVersion) :
    (v.to_tag).data = v.series_name.data ++
      '-' :: (natRepr v.major ++ '.' :: (natRepr v.minor ++ '.' :: natRepr v.patch)) := by
  simp [to_tag, to_version]

theorem to_tag_tail_no_dash (v : SemanticVersion) :
    ∀ c ∈ natRepr v.major ++ '.' :: (natRepr v.minor ++ '.' :: natRepr v.patch),
      ¬ c = '-' := by
  intro c hc
  rcases List.mem_append.mp hc with h | h
  · exact digit_ne_dash (natRepr_digits _ c h)
  · rcases List.mem_cons.mp h with h | h
    · subst h; decide
    · rcases List.mem_append.mp h with h | h
      · exact digit_ne_dash (natRepr_digits _ c h)
      · rcases List.mem_cons.mp h with h | h
        · subst h; decide
        · exact digit_ne_dash (natRepr_digits _ c h)

theorem semverSplitAt_to_tag_gt (v : SemanticVersion) {j : Nat}
    (hj : v.series_name.data.length < j) :
    semverSplitAt (v.to_tag).data j = none := by
  apply semverSplitAt_none_of_no_dash
  intro c hc
  set tail := natRepr v.major ++ '.' :: (natRepr v.minor ++ '.' :: natRepr v.patch)
    with htail
  have hs : (v.to_tag).data = (v.series_name.data ++ ['-']) ++ tail := by
    rw [to_tag_data]
    simp
  rw [hs] at hc
  have hlen : (v.series_name.data ++ ['-']).length = v.series_name.data.length + 1 := by
    simp
  have hj' : j = (v.series_name.data ++ ['-']).length + (j - v.series_name.data.length - 1) := by
    omega
  rw [hj', List.drop_append] at hc
  exact to_tag_tail_no_dash v c (List.drop_subset _ _ hc)

theorem semverSplitAt_to_tag (v : SemanticVersion) (hser : v.series_name ≠ "")
    (hnl : '\n' ∉ v.series_name.data) :
    semverSplitAt (v.to_tag).data v.series_name.data.length = some v := by
  unfold semverSplitAt
  have hk : v.series_name.data.length ≠ 0 :=
    fun h0 => string_data_ne_nil hser (List.length_eq_zero.mp h0)
  rw [to_tag_data, if_neg hk, List.take_left, List.drop_left]
  have hany : ¬ (v.series_name.data.any (fun c => c = '\n') = true) := by
    rw [List.any_eq_true]
    rintro ⟨c, hc, hceq⟩
    simp at hceq
    exact hnl (hceq ▸ hc)
  rw [if_neg hany]
  simp only [matchVersionSuffix, if_pos rfl]
  rw [mvsAfterDash_exact (natRepr_ne_nil _) (natRepr_digits _) (natRepr_ne_nil _)
    (natRepr_digits _) (natRepr_ne_nil _) (natRepr_digits _)]
  simp only [Option.map_some', natRepr_val]
  cases v with
  | mk series major minor patch => rfl

end SemanticVersion

/-! ### Claim C4 -/

/-- C4 counterexample: the tag text `v-1.2.3junk` is not of the exact form
`<series>-<major>.<minor>.<patch>` (it carries trailing text after the patch
digits), yet `SemanticVersion.make` succeeds on it instead of failing with a
malformed-tag error, because `re.match` does not anchor the pattern at the
end of the text. -/
theorem c4_counterexample :
    SemanticVersion.make "v-1.2.3junk" = Except.ok ⟨"v", 1, 2, 3⟩ ∧
    isExactSemverTag "v-1.2.3junk" = false := by
  exact ⟨by decide, by decide⟩

/-- C4 amended: `SemanticVersion.make` succeeds exactly on the texts that
have a prefix of the form `<series>-<major>.<minor>.<patch>` (series
non-empty and newline-free, components non-empty digit runs), with arbitrary
trailing text accepted and ignored; when no such prefix exists it fails with
an error naming the offending text as `Malformed tag "<text>"`. -/
theorem c4_parse_succeeds_exactly_on_prefix_form (s : String) :
    ((∃ series d1 d2 d3 rest : List Char,
        s.data = series ++ '-' :: (d1 ++ '.' :: (d2 ++ '.' :: (d3 ++ rest))) ∧
        series ≠ [] ∧ '\n' ∉ series ∧
        d1 ≠ [] ∧ d2 ≠ [] ∧ d3 ≠ [] ∧
        (∀ c ∈ d1, c.isDigit = true) ∧ (∀ c ∈ d2, c.isDigit = true) ∧
        (∀ c ∈ d3, c.isDigit = true)) ↔
      ∃ v, SemanticVersion.make s = Except.ok v) ∧
    ((SemanticVersion.make s).isOk = false →
      SemanticVersion.make s = Except.error ("Malformed tag \"" ++ s ++ "\"")) := by
  constructor
  · constructor
    · rintro ⟨series, d1, d2, d3, rest, hs, hser, hnl, h1, h2, h3, hg1, hg2, hg3⟩
      have hsome := @SemanticVersion.semverSplitAt_isSome_of_decomp series d1 d2 d3
        rest hser hnl h1 hg1 h2 hg2 h3 hg3
      rw [← hs] at hsome
      have hlen : series.length ≤ s.data.length := by
        rw [hs, List.length_append]
        omega
      have hsearch := SemanticVersion.semverSearchAux_isSome_of s.data
        s.data.length series.length hlen hsome
      unfold SemanticVersion.make
      cases hm : SemanticVersion.semverMatch s.data with
      | some v => exact ⟨v, rfl⟩
      | none =>
        unfold SemanticVersion.semverMatch at hm
        rw [hm] at hsearch
        cases hsearch
    · rintro ⟨v, hv⟩
      unfold SemanticVersion.make at hv
      cases hm : SemanticVersion.semverMatch s.data with
      | none => rw [hm] at hv; cases hv
      | some w =>
        unfold SemanticVersion.semverMatch at hm
        obtain ⟨k, hk0, hsplit⟩ :=
          SemanticVersion.semverSearchAux_some_split s.data s.data.length w hm
        obtain ⟨series, d1, d2, d3, rest, hs, hser, hnl, h1, h2, h3, hg1, hg2, hg3⟩ :=
          SemanticVersion.semverSplitAt_some_decomp hsplit
        exact ⟨series, d1, d2, d3, rest, hs, hser, hnl, h1, h2, h3, hg1, hg2, hg3⟩
  · intro hnotok
    unfold SemanticVersion.make at hnotok ⊢
    cases hm : SemanticVersion.semverMatch s.data with
    | some v =>
      rw [hm] at hnotok
      simp [Except.isOk, Except.toBool] at hnotok
    | none => rfl

/-- C4 witness: `release-1.2.3` has the prefix form, hence parses; `vvv` has
no such prefix and raises the named malformed-tag error. -/
theorem c4_witness :
    (∃ v, SemanticVersion.make "release-1.2.3" = Except.ok v) ∧
    SemanticVersion.make "vvv" = Except.error "Malformed tag \"vvv\"" :=
  ⟨(c4_parse_succeeds_exactly_on_prefix_form "release-1.2.3").1.mp
      ⟨"release".data, ['1'], ['2'], ['3'], [], by decide, by decide, by decide,
        by decide, by decide, by decide, by decide, by decide, by decide⟩,
    (c4_parse_succeeds_exactly_on_prefix_form "vvv").2 (by decide)⟩

/-! ### Claim C8 -/

/-- C8 counterexample: the value with series `a\nb` (non-empty and free of
any `-<digits>.<digits>.<digits>` ambiguity) formats to the tag
`a\nb-1.2.3`, but parsing that tag fails (`.` in the pattern does not match
a newline), so `parse(format(v)) = v` does not hold for it. -/
theorem c8_counterexample :
    SemanticVersion.make (SemanticVersion.to_tag ⟨"a\nb", 1, 2, 3⟩) =
      Except.error "Malformed tag \"a\nb-1.2.3\"" ∧
    ("a\nb" : String) ≠ "" ∧
    containsDashVersion ("a\nb").data = false := by
  exact ⟨by decide, by decide, by decide⟩

/-- C8 amended: round-tripping holds for every `SemanticVersion` whose
series is non-empty and contains no newline character:
`make (to_tag v) = ok v` (no numeric-suffix condition is needed — the greedy
series group of the pattern resolves any ambiguity in favour of the longest
series). -/
theorem c8_parse_format_roundtrip (v : SemanticVersion)
    (hser : v.series_name ≠ "") (hnl : '\n' ∉ v.series_name.data) :
    SemanticVersion.make v.to_tag = Except.ok v := by
  have hk0 : v.series_name.data.length ≠ 0 :=
    fun h0 => string_data_ne_nil hser (List.length_eq_zero.mp h0)
  have hsplit := SemanticVersion.semverSplitAt_to_tag v hser hnl
  have hmatch : SemanticVersion.semverMatch (v.to_tag).data = some v := by
    unfold SemanticVersion.semverMatch
    have hlen : v.series_name.data.length ≤ (v.to_tag).data.length := by
      rw [SemanticVersion.to_tag_data, List.length_append]
      omega
    rw [SemanticVersion.semverSearchAux_skip (v.to_tag).data (v.to_tag).data.length
      v.series_name.data.length hlen
      (fun j hj => SemanticVersion.semverSplitAt_to_tag_gt v hj)]
    obtain ⟨n, hn⟩ := Nat.exists_eq_succ_of_ne_zero hk0
    rw [hn] at hsplit ⊢
    rw [SemanticVersion.semverSearchAux, hsplit]
  unfold SemanticVersion.make
  rw [hmatch]

/-- C8 witness: the round trip evaluated at `release-1.2.3`. -/
theorem c8_witness :
    SemanticVersion.make (SemanticVersion.to_tag ⟨"release", 1, 2, 3⟩) =
      Except.ok ⟨"release", 1, 2, 3⟩ :=
  c8_parse_format_roundtrip ⟨"release", 1, 2, 3⟩ (by decide) (by decide)

/-! ### Claims C6 and C7 -/

theorem determine_semver_implication_le (cm : CommitMessage)
    (Mj Mi Pa : List CommitMessage.Pattern) {d : Nat} (hd : d ≤ 3) :
    CommitMessage.determine_semver_implication cm Mj Mi Pa d ≤ 3 := by
  unfold CommitMessage.determine_semver_implication SemanticVersion.MAJOR_INDEX
    SemanticVersion.MINOR_INDEX SemanticVersion.PATCH_INDEX
  dsimp only
  split_ifs <;> omega

theorem one_le_determine_semver_implication (cm : CommitMessage)
    (Mj Mi Pa : List CommitMessage.Pattern) {d : Nat} (hd : 1 ≤ d) :
    1 ≤ CommitMessage.determine_semver_implication cm Mj Mi Pa d := by
  unfold CommitMessage.determine_semver_implication SemanticVersion.MAJOR_INDEX
    SemanticVersion.MINOR_INDEX SemanticVersion.PATCH_INDEX
  dsimp only
  split_ifs <;> omega

theorem foldl_min_characterization (f : CommitMessage → Nat) :
    ∀ (l : List CommitMessage) (a : Nat),
      (l.foldl (fun msi m => min msi (f m)) a = a ∨
        ∃ m ∈ l, l.foldl (fun msi m => min msi (f m)) a = f m) ∧
      l.foldl (fun msi m => min msi (f m)) a ≤ a ∧
      ∀ m ∈ l, l.foldl (fun msi m => min msi (f m)) a ≤ f m := by
  intro l
  induction l with
  | nil => intro a; exact ⟨Or.inl rfl, le_rfl, by simp⟩
  | cons m t ih =>
    intro a
    obtain ⟨hshape, hle, hall⟩ := ih (min a (f m))
    refine ⟨?_, ?_, ?_⟩
    · rcases hshape with h | ⟨m', hm', hfm'⟩
      · rcases Nat.le_total (f m) a with hfa | hfa
        · right
          exact ⟨m, by simp, by rw [List.foldl_cons, h]; omega⟩
        · left
          rw [List.foldl_cons, h]
          omega
      · right
        exact ⟨m', by simp [hm'], by rw [List.foldl_cons]; exact hfm'⟩
    · rw [List.foldl_cons]
      omega
    · intro m' hm'
      rcases List.mem_cons.mp hm' with h | h
      · subst h
        rw [List.foldl_cons]
        omega
      · rw [List.foldl_cons]
        exact hall m' h

/-- C6: over a non-empty message list, `determine_semver_implication_on_list`
returns the most significant (numerically least, MAJOR = 1 beating
MINOR = 2 beating PATCH = 3) of the per-message classifications — so a
single MAJOR-classified commit anywhere forces a MAJOR result — and it
returns `none` exactly when the list is empty.  The default index is
required to be a severity index (1..3), as in every call in the source. -/
theorem c6_classify_all_most_significant
    (Mj Mi Pa : List CommitMessage.Pattern) (d : Nat)
    (hd1 : 1 ≤ d) (hd3 : d ≤ 3) (msgs : List CommitMessage) :
    (CommitMessage.determine_semver_implication_on_list msgs Mj Mi Pa d = none ↔
      msgs = []) ∧
    (msgs ≠ [] →
      ∃ m ∈ msgs,
        CommitMessage.determine_semver_implication_on_list msgs Mj Mi Pa d =
          some (CommitMessage.determine_semver_implication m Mj Mi Pa d) ∧
        ∀ m' ∈ msgs,
          CommitMessage.determine_semver_implication m Mj Mi Pa d ≤
            CommitMessage.determine_semver_implication m' Mj Mi Pa d) ∧
    ((∃ m ∈ msgs, CommitMessage.determine_semver_implication m Mj Mi Pa d =
        SemanticVersion.MAJOR_INDEX) →
      CommitMessage.determine_semver_implication_on_list msgs Mj Mi Pa d =
        some SemanticVersion.MAJOR_INDEX) := by
  have hmain : msgs ≠ [] →
      ∃ m ∈ msgs,
        CommitMessage.determine_semver_implication_on_list msgs Mj Mi Pa d =
          some (CommitMessage.determine_semver_implication m Mj Mi Pa d) ∧
        ∀ m' ∈ msgs,
          CommitMessage.determine_semver_implication m Mj Mi Pa d ≤
            CommitMessage.determine_semver_implication m' Mj Mi Pa d := by
    intro hne
    obtain ⟨hshape, hle, hall⟩ := foldl_min_characterization
      (fun m => CommitMessage.determine_semver_implication m Mj Mi Pa d) msgs 4
    rcases hshape with h4 | ⟨m, hm, hfm⟩
    · exfalso
      obtain ⟨m0, hm0⟩ := List.exists_mem_of_ne_nil msgs hne
      have h1 := hall m0 hm0
      have h2 : CommitMessage.determine_semver_implication m0 Mj Mi Pa d ≤ 3 :=
        determine_semver_implication_le m0 Mj Mi Pa hd3
      simp only at h1
      omega
    · refine ⟨m, hm, ?_, fun m' hm' => ?_⟩
      · unfold CommitMessage.determine_semver_implication_on_list
        rw [if_neg hne]
        exact congrArg some hfm
      · have h1 := hall m' hm'
        simp only at h1 hfm
        omega
  refine ⟨?_, hmain, ?_⟩
  · constructor
    · intro hnone
      by_contra hne
      obtain ⟨m, hm, heq, -⟩ := hmain hne
      rw [heq] at hnone
      cases hnone
    · intro he
      unfold CommitMessage.determine_semver_implication_on_list
      rw [if_pos he]
  · rintro ⟨m1, hm1, hmaj⟩
    have hne : msgs ≠ [] := fun he => by subst he; cases hm1
    obtain ⟨m, hm, heq, hmin⟩ := hmain hne
    rw [heq]
    have h1 := hmin m1 hm1
    have h2 : 1 ≤ CommitMessage.determine_semver_implication m Mj Mi Pa d :=
      one_le_determine_semver_implication m Mj Mi Pa hd1
    have h3 : CommitMessage.determine_semver_implication m1 Mj Mi Pa d = 1 := hmaj
    have h4 : CommitMessage.determine_semver_implication m Mj Mi Pa d = 1 := by omega
    rw [h4]
    rfl

/-- C6 witness: a list with a PATCH `fix:`, a MINOR `feat:` and a MAJOR
breaking-change commit yields the aggregate of the most significant
per-message classification, evaluated through the theorem. -/
theorem c6_witness :
    ∃ m ∈ [(⟨"i", "a", "d", "fix: a"⟩ : CommitMessage),
           ⟨"i", "a", "d", "feat: b"⟩, ⟨"i", "a", "d", "chore: BREAKING CHANGE"⟩],
      CommitMessage.determine_semver_implication_on_list
        [⟨"i", "a", "d", "fix: a"⟩, ⟨"i", "a", "d", "feat: b"⟩,
         ⟨"i", "a", "d", "chore: BREAKING CHANGE"⟩]
        CommitMessage.DEFAULT_MAJOR_REGEXS CommitMessage.DEFAULT_MINOR_REGEXS
        CommitMessage.DEFAULT_PATCH_REGEXS SemanticVersion.MINOR_INDEX =
        some (CommitMessage.determine_semver_implication m
          CommitMessage.DEFAULT_MAJOR_REGEXS CommitMessage.DEFAULT_MINOR_REGEXS
          CommitMessage.DEFAULT_PATCH_REGEXS SemanticVersion.MINOR_INDEX) ∧
      ∀ m' ∈ [(⟨"i", "a", "d", "fix: a"⟩ : CommitMessage),
              ⟨"i", "a", "d", "feat: b"⟩, ⟨"i", "a", "d", "chore: BREAKING CHANGE"⟩],
        CommitMessage.determine_semver_implication m
            CommitMessage.DEFAULT_MAJOR_REGEXS CommitMessage.DEFAULT_MINOR_REGEXS
            CommitMessage.DEFAULT_PATCH_REGEXS SemanticVersion.MINOR_INDEX ≤
          CommitMessage.determine_semver_implication m'
            CommitMessage.DEFAULT_MAJOR_REGEXS CommitMessage.DEFAULT_MINOR_REGEXS
            CommitMessage.DEFAULT_PATCH_REGEXS SemanticVersion.MINOR_INDEX :=
  (c6_classify_all_most_significant CommitMessage.DEFAULT_MAJOR_REGEXS
      CommitMessage.DEFAULT_MINOR_REGEXS CommitMessage.DEFAULT_PATCH_REGEXS
      SemanticVersion.MINOR_INDEX (by decide) (by decide) _).2.1 (by decide)

/-- C7 counterexample: a MAJOR rule set containing a matching pattern does
not determine the returned severity when the pattern captures no group
(`re.compile('BREAKING CHANGE')` matches, but `match.groups()` is the empty
tuple, which is falsy): the message classifies MINOR via the default-rule
`chore:` prefix, not MAJOR. -/
theorem c7_counterexample :
    (noGroupBreakingPattern
        (String.mk (pyStrip ("chore: BREAKING CHANGE: drop").data))).isSome = true ∧
    CommitMessage.determine_semver_implication
        ⟨"i", "a", "d", "chore: BREAKING CHANGE: drop"⟩
        [noGroupBreakingPattern] CommitMessage.DEFAULT_MINOR_REGEXS
        CommitMessage.DEFAULT_PATCH_REGEXS SemanticVersion.MINOR_INDEX =
      SemanticVersion.MINOR_INDEX ∧
    SemanticVersion.MINOR_INDEX ≠ SemanticVersion.MAJOR_INDEX := by
  exact ⟨by decide, by decide, by decide⟩

/-- C7 amended: `determine_semver_implication` evaluates the MAJOR rule set
first, then MINOR, then PATCH, over the stripped message; the first rule set
whose `is_compliant` result is truthy (its first matching pattern captures a
non-empty group tuple — true for every matching default pattern) determines
the severity, lower sets are not consulted, and when no set is truthy the
default index (MINOR when unspecified) is returned. -/
theorem c7_priority_order (cm : CommitMessage)
    (Mj Mi Pa : List CommitMessage.Pattern) (d : Nat) :
    (CommitMessage.truthyGroups (CommitMessage.is_compliant Mj
        (String.mk (pyStrip cm.message.data))) = true →
      CommitMessage.determine_semver_implication cm Mj Mi Pa d =
        SemanticVersion.MAJOR_INDEX) ∧
    (CommitMessage.truthyGroups (CommitMessage.is_compliant Mj
        (String.mk (pyStrip cm.message.data))) = false →
      CommitMessage.truthyGroups (CommitMessage.is_compliant Mi
        (String.mk (pyStrip cm.message.data))) = true →
      CommitMessage.determine_semver_implication cm Mj Mi Pa d =
        SemanticVersion.MINOR_INDEX) ∧
    (CommitMessage.truthyGroups (CommitMessage.is_compliant Mj
        (String.mk (pyStrip cm.message.data))) = false →
      CommitMessage.truthyGroups (CommitMessage.is_compliant Mi
        (String.mk (pyStrip cm.message.data))) = false →
      CommitMessage.truthyGroups (CommitMessage.is_compliant Pa
        (String.mk (pyStrip cm.message.data))) = true →
      CommitMessage.determine_semver_implication cm Mj Mi Pa d =
        SemanticVersion.PATCH_INDEX) ∧
    (CommitMessage.truthyGroups (CommitMessage.is_compliant Mj
        (String.mk (pyStrip cm.message.data))) = false →
      CommitMessage.truthyGroups (CommitMessage.is_compliant Mi
        (String.mk (pyStrip cm.message.data))) = false →
      CommitMessage.truthyGroups (CommitMessage.is_compliant Pa
        (String.mk (pyStrip cm.message.data))) = false →
      CommitMessage.determine_semver_implication cm Mj Mi Pa d = d) := by
  refine ⟨?_, ?_, ?_, ?_⟩
  · intro h1
    simp [CommitMessage.determine_semver_implication, h1]
  · intro h1 h2
    simp [CommitMessage.determine_semver_implication, h1, h2]
  · intro h1 h2 h3
    simp [CommitMessage.determine_semver_implication, h1, h2, h3]
  · intro h1 h2 h3
    simp [CommitMessage.determine_semver_implication, h1, h2, h3]

/-- C7 witness: with the default rule sets, a message matching both a MINOR
`feat(...)` prefix and `BREAKING CHANGE` classifies MAJOR because the MAJOR
set is evaluated first. -/
theorem c7_witness :
    CommitMessage.determine_semver_implication
        ⟨"i", "a", "d", "feat(api): x\nBREAKING CHANGE: y"⟩
        CommitMessage.DEFAULT_MAJOR_REGEXS CommitMessage.DEFAULT_MINOR_REGEXS
        CommitMessage.DEFAULT_PATCH_REGEXS SemanticVersion.MINOR_INDEX =
      SemanticVersion.MAJOR_INDEX :=
  (c7_priority_order ⟨"i", "a", "d", "feat(api): x\nBREAKING CHANGE: y"⟩
      CommitMessage.DEFAULT_MAJOR_REGEXS CommitMessage.DEFAULT_MINOR_REGEXS
      CommitMessage.DEFAULT_PATCH_REGEXS SemanticVersion.MINOR_INDEX).1 (by decide)

/-! ### Claim C5 -/

theorem unpack_embedded_commits_cons (m : CommitMessage) (rest : List CommitMessage) :
    CommitMessage.unpack_embedded_commits (m :: rest) =
      match CommitMessage.unpackEmbeddedOne m,
          CommitMessage.unpack_embedded_commits rest with
      | some hd, some tl => some (hd ++ tl)
      | _, _ => none := rfl

theorem unpack_embedded_commits_append (l1 l2 : List CommitMessage) :
    CommitMessage.unpack_embedded_commits (l1 ++ l2) =
      match CommitMessage.unpack_embedded_commits l1,
          CommitMessage.unpack_embedded_commits l2 with
      | some a, some b => some (a ++ b)
      | _, _ => none := by
  induction l1 with
  | nil =>
    simp only [List.nil_append]
    cases h2 : CommitMessage.unpack_embedded_commits l2 <;>
      simp [CommitMessage.unpack_embedded_commits, h2]
  | cons m t ih =>
    rw [List.cons_append, unpack_embedded_commits_cons, ih,
      unpack_embedded_commits_cons]
    cases hm : CommitMessage.unpackEmbeddedOne m <;>
      cases ht : CommitMessage.unpack_embedded_commits t <;>
        cases h2 : CommitMessage.unpack_embedded_commits l2 <;>
          simp [List.append_assoc]

theorem pruneLines_none_of_offending {off : Nat} :
    ∀ lines : List (List Char), hasOffendingLine off lines = true →
      CommitMessage.pruneLines off lines = none := by
  intro lines
  induction lines with
  | nil => intro h; simp [hasOffendingLine] at h
  | cons l ls ih =>
    intro h
    simp only [hasOffendingLine, List.any_cons, Bool.or_eq_true] at h
    rcases h with hl | hrest
    · simp only [Bool.and_eq_true, Bool.not_eq_true'] at hl
      obtain ⟨hpre, hempty⟩ := hl
      unfold CommitMessage.pruneLines
      rw [if_neg (by simp [hpre]), if_neg (by simpa using hempty)]
    · have hrec : CommitMessage.pruneLines off ls = none :=
        ih (by unfold hasOffendingLine; exact hrest)
      unfold CommitMessage.pruneLines
      by_cases hp : (List.replicate off ' ').isPrefixOf l = true
      · rw [if_pos hp, hrec]
      · rw [if_neg hp]
        by_cases hle : l = []
        · rw [if_pos hle, hrec]
        · rw [if_neg hle]

/-- C5: when a record's message contains an embedded commit header but the
text from the match onward has a non-blank line that does not start with the
detected indentation prefix, the unpacking pass keeps the original record
unchanged in its place — wherever it sits in the list — raising no error and
losing no record (the surrounding records are processed independently). -/
theorem c5_inconsistent_indentation_keeps_record (r : CommitMessage)
    (start off : Nat)
    (hsearch : CommitMessage.embeddedSearch r.message.data = some (start, off))
    (hoff : hasOffendingLine off (splitChar '\n' (r.message.data.drop start)) = true)
    (l1 l2 : List CommitMessage) :
    CommitMessage.unpack_embedded_commits (l1 ++ r :: l2) =
      (CommitMessage.unpack_embedded_commits l1).bind fun a =>
        (CommitMessage.unpack_embedded_commits l2).map fun b => a ++ [r] ++ b := by
  have hstep : CommitMessage.unpackEmbeddedOne r = some [r] := by
    unfold CommitMessage.unpackEmbeddedOne
    rw [hsearch]
    dsimp only
    rw [pruneLines_none_of_offending _ hoff]
  rw [unpack_embedded_commits_append l1 (r :: l2), unpack_embedded_commits_cons,
    hstep]
  cases h1 : CommitMessage.unpack_embedded_commits l1 <;>
    cases h2 : CommitMessage.unpack_embedded_commits l2 <;>
      simp [List.append_assoc]

/-- C5 witness: the record whose embedded block is indented by two spaces
but is followed by the unindented line `XX` survives the pass unchanged. -/
theorem c5_witness :
    CommitMessage.unpack_embedded_commits [exInconsistent] = some [exInconsistent] := by
  have h := c5_inconsistent_indentation_keeps_record exInconsistent 12 2
    (by decide) (by decide) [] []
  simpa using h

/-! ### Claim C2 -/

theorem splitChar_mem_not_sep (sep : Char) :
    ∀ xs l, l ∈ splitChar sep xs → sep ∉ l := by
  intro xs
  induction xs with
  | nil =>
    intro l hl
    simp [splitChar] at hl
    simp [hl]
  | cons c cs ih =>
    intro l hl
    by_cases hc : c = sep
    · rw [splitChar, if_pos hc] at hl
      rcases List.mem_cons.mp hl with h | h
      · simp [h]
      · exact ih l h
    · rw [splitChar, if_neg hc] at hl
      cases hsp : splitChar sep cs with
      | nil => rw [hsp] at hl; simp at hl; simp [hl, Ne.symm hc]
      | cons r rs =>
        rw [hsp] at hl
        rcases List.mem_cons.mp hl with h | h
        · subst h
          intro hmem
          rcases List.mem_cons.mp hmem with h' | h'
          · exact hc h'.symm
          · exact ih r (hsp ▸ List.mem_cons_self r rs) h'
        · exact ih l (hsp ▸ List.mem_cons_of_mem r h)

theorem splitChar_no_sep {sep : Char} :
    ∀ x : List Char, sep ∉ x → splitChar sep x = [x] := by
  intro x
  induction x with
  | nil => intro _; rfl
  | cons c cs ih =>
    intro hns
    have hc : ¬ c = sep := fun h => hns (h ▸ List.mem_cons_self c cs)
    have hcs : sep ∉ cs := fun h => hns (List.mem_cons_of_mem c h)
    rw [splitChar, if_neg hc, ih hcs]

theorem splitChar_append_cons {sep : Char} :
    ∀ (x rest : List Char), sep ∉ x →
      splitChar sep (x ++ sep :: rest) = x :: splitChar sep rest := by
  intro x
  induction x with
  | nil =>
    intro rest _
    rw [List.nil_append, splitChar, if_pos rfl]
  | cons c cs ih =>
    intro rest hns
    have hc : ¬ c = sep := fun h => hns (h ▸ List.mem_cons_self c cs)
    have hcs : sep ∉ cs := fun h => hns (List.mem_cons_of_mem c h)
    rw [List.cons_append, splitChar, if_neg hc, ih rest hcs]

theorem splitChar_joinLines :
    ∀ L : List (List Char), L ≠ [] → (∀ l ∈ L, '\n' ∉ l) →
      splitChar '\n' (joinLines L) = L := by
  intro L
  induction L with
  | nil => intro h _; exact absurd rfl h
  | cons x t ih =>
    intro _ hno
    cases t with
    | nil =>
      rw [joinLines]
      exact splitChar_no_sep x (hno x (by simp))
    | cons y t' =>
      rw [joinLines, splitChar_append_cons x _ (hno x (by simp)),
        ih (List.cons_ne_nil y t') (fun l hl => hno l (List.mem_cons_of_mem x hl))]
      exact List.cons_ne_nil y t'

theorem firstSummaryIndex_lt_length :
    ∀ (L : List (List Char)) (j : Nat), firstSummaryIndex L = some j →
      j < L.length := by
  intro L
  induction L with
  | nil => intro j h; cases h
  | cons l ls ih =>
    intro j h
    rw [firstSummaryIndex] at h
    by_cases hm : CommitMessage.summaryMatchLine l = true
    · rw [if_pos hm] at h
      cases h
      simp
    · rw [if_neg hm] at h
      cases hrec : firstSummaryIndex ls with
      | none => rw [hrec] at h; cases h
      | some j' =>
        rw [hrec] at h
        cases h
        have := ih j' hrec
        simp
        omega

theorem firstSummaryIndex_drop :
    ∀ (L : List (List Char)) (j : Nat), firstSummaryIndex L = some j →
      ∃ l ls, L.drop j = l :: ls ∧ CommitMessage.summaryMatchLine l = true := by
  intro L
  induction L with
  | nil => intro j h; cases h
  | cons l ls ih =>
    intro j h
    rw [firstSummaryIndex] at h
    by_cases hm : CommitMessage.summaryMatchLine l = true
    · rw [if_pos hm] at h
      cases h
      exact ⟨l, ls, rfl, hm⟩
    · rw [if_neg hm] at h
      cases hrec : firstSummaryIndex ls with
      | none => rw [hrec] at h; cases h
      | some j' =>
        rw [hrec] at h
        cases h
        exact ih j' hrec

theorem summaryAux_pending_irrelevant (cid au dt : String) :
    ∀ (rest : List (List Char)) (p q : List (List Char)),
      firstSummaryIndex rest ≠ none →
      CommitMessage.summaryAux cid au dt p false rest =
        CommitMessage.summaryAux cid au dt q false rest := by
  intro rest
  induction rest with
  | nil => intro p q h; exact absurd rfl h
  | cons l ls ih =>
    intro p q h
    by_cases hm : CommitMessage.summaryMatchLine l = true
    · rw [CommitMessage.summaryAux, if_pos hm, CommitMessage.summaryAux, if_pos hm]
      simp
    · rw [CommitMessage.summaryAux, if_neg hm, CommitMessage.summaryAux, if_neg hm]
      apply ih
      intro hrec
      apply h
      rw [firstSummaryIndex, if_neg hm, hrec]
      rfl

theorem summaryAux_drop (cid au dt : String) :
    ∀ (lines : List (List Char)) (j : Nat) (p : List (List Char)),
      firstSummaryIndex lines = some j →
      CommitMessage.summaryAux cid au dt p false lines =
        CommitMessage.summaryAux cid au dt p false (lines.drop j) := by
  intro lines
  induction lines with
  | nil => intro j p h; cases h
  | cons l ls ih =>
    intro j p h
    rw [firstSummaryIndex] at h
    by_cases hm : CommitMessage.summaryMatchLine l = true
    · rw [if_pos hm] at h
      cases h
      rfl
    · rw [if_neg hm] at h
      cases hrec : firstSummaryIndex ls with
      | none => rw [hrec] at h; cases h
      | some j' =>
        rw [hrec] at h
        cases h
        rw [CommitMessage.summaryAux, if_neg hm, ih j' (p ++ [l]) hrec,
          List.drop_succ_cons]
        obtain ⟨l0, ls0, hdrop, hm0⟩ := firstSummaryIndex_drop ls j' hrec
        apply summaryAux_pending_irrelevant
        rw [hdrop, firstSummaryIndex, if_pos hm0]
        simp

/-- C2 counterexample: for the record whose message is
`intro\nfix(a): x` (first summary-shaped line at index 1, not at the start)
the pass emits only the block for the match — the leading text `intro` is
not emitted as an additional block, contradicting the claim that it is. -/
theorem c2_counterexample :
    CommitMessage.unpack_embedded_summaries [⟨"id", "au", "dt", "intro\nfix(a): x"⟩] =
      [⟨"id", "au", "dt", "fix(a): x"⟩] := by
  decide

/-- C2 amended: the text before the first summary-shaped line is discarded,
not emitted: the pass produces for the record exactly what it produces for
the record whose message starts at the first matching line. -/
theorem c2_leading_text_dropped (r : CommitMessage) (j : Nat)
    (hj : firstSummaryIndex (splitChar '\n' r.message.data) = some j) :
    CommitMessage.unpack_embedded_summaries [r] =
      CommitMessage.unpack_embedded_summaries
        [⟨r.commit_id, r.author, r.date,
          String.mk (joinLines ((splitChar '\n' r.message.data).drop j))⟩] := by
  have hlen := firstSummaryIndex_lt_length _ _ hj
  have hne : (splitChar '\n' r.message.data).drop j ≠ [] := by
    intro h
    have := List.length_drop j (splitChar '\n' r.message.data)
    rw [h] at this
    simp at this
    omega
  have hno : ∀ l ∈ (splitChar '\n' r.message.data).drop j, '\n' ∉ l :=
    fun l hl => splitChar_mem_not_sep '\n' r.message.data l (List.drop_subset _ _ hl)
  have hsp : splitChar '\n'
      (String.mk (joinLines ((splitChar '\n' r.message.data).drop j))).data =
      (splitChar '\n' r.message.data).drop j := by
    exact splitChar_joinLines _ hne hno
  unfold CommitMessage.unpack_embedded_summaries
  simp only [List.foldr, List.append_nil]
  rw [hsp]
  exact summaryAux_drop r.commit_id r.author r.date _ j [] hj

/-- C2 witness: the amended statement evaluated on the `intro\nfix(a): x`
record with its first match at index 1. -/
theorem c2_witness :
    CommitMessage.unpack_embedded_summaries [⟨"id", "au", "dt", "intro\nfix(a): x"⟩] =
      CommitMessage.unpack_embedded_summaries
        [⟨"id", "au", "dt",
          String.mk (joinLines ((splitChar '\n' ("intro\nfix(a): x" : String).data).drop 1))⟩] :=
  c2_leading_text_dropped ⟨"id", "au", "dt", "intro\nfix(a): x"⟩ 1 (by decide)

/-! ### Claim C3 -/

theorem mapMOpt_eq_none_of_mem {α β} {f : α → Option β} :
    ∀ (l : List α) (a : α), a ∈ l → f a = none → mapMOpt f l = none := by
  intro l
  induction l with
  | nil => intro a ha _; cases ha
  | cons b t ih =>
    intro a ha hfa
    rcases List.mem_cons.mp ha with h | h
    · subst h
      rw [mapMOpt, hfa]
    · rw [mapMOpt]
      cases hb : f b with
      | none => rfl
      | some v => rw [ih a h hfa]

/-- C3 counterexample: a blob holding one well-formed block and one block
whose header does not match the three-line shape: the whole parse fails
(`none`, an unhandled attribute error in the source, naming nothing), even
though the well-formed block parses on its own — the failure is not local to
the bad block. -/
theorem c3_counterexample :
    CommitMessage.make_list_from_result
        "commit good\nAuthor: Ann\nDate:   2020\n\n    ok\ncommit bad" = none ∧
    CommitMessage.make "good\nAuthor: Ann\nDate:   2020\n\n    ok" =
      some ⟨"good", "Ann", "2020", "    ok"⟩ := by
  exact ⟨by decide, by decide⟩

/-- C3 amended: a block whose header does not match the expected three-line
shape makes the parse of the entire blob fail (the source raises an unnamed
`AttributeError` from `None.end`, not a `MalformedLogEntry` naming the
block), invalidating every other block of the blob. -/
theorem c3_malformed_block_aborts_whole_parse (s : String) (e : List Char)
    (hmem : e ∈ CommitMessage.logEntries s)
    (hbad : CommitMessage.make (String.mk e) = none) :
    CommitMessage.make_list_from_result s = none := by
  unfold CommitMessage.make_list_from_result
  exact mapMOpt_eq_none_of_mem _ e hmem hbad

/-- C3 witness: the amended statement evaluated on a blob whose second block
is the headerless text `bad2`. -/
theorem c3_witness :
    CommitMessage.make_list_from_result
      "commit ok1\nAuthor: A\nDate:   d\n\n    one\ncommit bad2" = none :=
  c3_malformed_block_aborts_whole_parse
    "commit ok1\nAuthor: A\nDate:   d\n\n    one\ncommit bad2"
    ("bad2").data (by decide) (by decide)

/-! ### Claim C10 -/

theorem findSplit_marker_none :
    ∀ ys : List Char, commitAfterNewlineFree ys = true →
      findSplit ('\n' :: ("commit ").data) ys = none := by
  intro ys
  induction ys with
  | nil => intro _; simp [findSplit]
  | cons c cs ih =>
    intro h
    rw [commitAfterNewlineFree] at h
    simp only [Bool.and_eq_true] at h
    obtain ⟨h1, h2⟩ := h
    rw [findSplit]
    have hnp : ¬ (('\n' :: ("commit ").data).isPrefixOf (c :: cs) = true) := by
      intro hp
      rw [List.isPrefixOf_iff_prefix, List.cons_prefix_cons] at hp
      obtain ⟨hc, hcs⟩ := hp
      rw [if_pos hc.symm] at h1
      have hpre : ("commit ").data.isPrefixOf cs = true :=
        List.isPrefixOf_iff_prefix.mpr hcs
      rw [hpre] at h1
      cases h1
    rw [if_neg hnp, ih h2]

theorem pyStrip_all_space {xs : List Char} (h : ∀ c ∈ xs, isPySpace c = true) :
    pyStrip xs = [] := by
  unfold pyStrip pyRstrip
  rw [List.dropWhile_eq_nil_iff.mpr h]
  simp

theorem findSplit_some_decomp (m : List Char) :
    ∀ (xs a b : List Char), findSplit m xs = some (a, b) → xs = a ++ m ++ b := by
  intro xs
  induction xs with
  | nil =>
    intro a b h
    rw [findSplit] at h
    by_cases hm0 : m = []
    · rw [if_pos hm0] at h
      simp only [Option.some.injEq, Prod.mk.injEq] at h
      obtain ⟨ha, hb⟩ := h
      subst ha; subst hb; subst hm0
      rfl
    · rw [if_neg hm0] at h
      cases h
  | cons c cs ih =>
    intro a b h
    rw [findSplit] at h
    by_cases hp : m.isPrefixOf (c :: cs) = true
    · rw [if_pos hp] at h
      obtain ⟨suf, hsuf⟩ := List.isPrefixOf_iff_prefix.mp hp
      simp only [Option.some.injEq, Prod.mk.injEq] at h
      obtain ⟨ha, hb⟩ := h
      subst ha
      rw [← hb, ← hsuf, List.drop_left]
      simp
    · rw [if_neg hp] at h
      cases hfc : findSplit m cs with
      | none => rw [hfc] at h; simp at h
      | some ab =>
        obtain ⟨a2, b2⟩ := ab
        rw [hfc] at h
        simp only [Option.some.injEq, Prod.mk.injEq] at h
        obtain ⟨ha, hb⟩ := h
        rw [← ha, ← hb, ih a2 b2 hfc]
        simp

theorem splitOnMarkerAux_ample_fuel {m : List Char} (hm : m ≠ []) :
    ∀ f1 : Nat, ∀ xs : List Char, ∀ f2 : Nat, xs.length ≤ f1 → xs.length ≤ f2 →
      splitOnMarkerAux m f1 xs = splitOnMarkerAux m f2 xs := by
  intro f1
  induction f1 with
  | zero =>
    intro xs f2 h1 h2
    have hxs : xs = [] := List.length_eq_zero.mp (Nat.le_zero.mp h1)
    subst hxs
    have hnone : findSplit m [] = none := by
      rw [findSplit, if_neg hm]
    cases f2 with
    | zero => rfl
    | succ g => simp only [splitOnMarkerAux, hnone]
  | succ f ih =>
    intro xs f2 h1 h2
    cases hfc : findSplit m xs with
    | none =>
      cases f2 with
      | zero =>
        have hxs : xs = [] := List.length_eq_zero.mp (Nat.le_zero.mp h2)
        subst hxs
        simp only [splitOnMarkerAux, hfc]
      | succ g => simp only [splitOnMarkerAux, hfc]
    | some ab =>
      obtain ⟨a, b⟩ := ab
      have hd := findSplit_some_decomp m xs a b hfc
      have hlc := congrArg List.length hd
      simp only [List.length_append] at hlc
      have hm1 : 1 ≤ m.length := by
        cases m with
        | nil => exact absurd rfl hm
        | cons y ys => simp
      cases f2 with
      | zero => omega
      | succ g =>
        simp only [splitOnMarkerAux, hfc]
        rw [ih b g (by omega) (by omega)]

theorem dropWhile_dropWhile_same {p : Char → Bool} :
    ∀ l : List Char, (l.dropWhile p).dropWhile p = l.dropWhile p := by
  intro l
  induction l with
  | nil => rfl
  | cons a t ih =>
    cases hp : p a with
    | true => rw [List.dropWhile_cons_of_pos hp]; exact ih
    | false =>
      have hp2 : ¬ p a = true := by rw [hp]; exact Bool.false_ne_true
      rw [List.dropWhile_cons_of_neg hp2, List.dropWhile_cons_of_neg hp2]

theorem pyStrip_reverse_fixed (zs : List Char) :
    (pyStrip zs).reverse.dropWhile isPySpace = (pyStrip zs).reverse := by
  unfold pyStrip pyRstrip
  rw [List.reverse_reverse]
  exact dropWhile_dropWhile_same _

theorem dropToCommitAux_findSplit :
    ∀ (cs : List Char) (c : Char),
      (findSplit ('\n' :: ("commit ").data) (c :: cs) = none →
        dropToCommitAux (decide (c = '\n')) cs = []) ∧
      (∀ a b, findSplit ('\n' :: ("commit ").data) (c :: cs) = some (a, b) →
        dropToCommitAux (decide (c = '\n')) cs = ("commit ").data ++ b) := by
  intro cs
  induction cs with
  | nil =>
    intro c
    have hfc : findSplit ('\n' :: ("commit ").data) [c] = none := by
      rw [findSplit]
      have hnp : ¬ (('\n' :: ("commit ").data).isPrefixOf [c] = true) := by
        intro hpp
        obtain ⟨t, ht⟩ := List.isPrefixOf_iff_prefix.mp hpp
        have hlt := congrArg List.length ht
        have h8 : ('\n' :: ("commit ").data).length = 8 := rfl
        rw [List.length_append, h8] at hlt
        simp only [List.length_cons, List.length_nil] at hlt
        omega
      rw [if_neg hnp, findSplit, if_neg (by decide : ¬ ('\n' :: ("commit ").data = []))]
    constructor
    · intro _
      rfl
    · intro a b h
      rw [hfc] at h
      simp at h
  | cons x t ih =>
    intro c
    by_cases hp : ('\n' :: ("commit ").data).isPrefixOf (c :: x :: t) = true
    · obtain ⟨suf, hsuf⟩ := List.isPrefixOf_iff_prefix.mp hp
      rw [List.cons_append] at hsuf
      injection hsuf with hc hxt
      subst hc
      have hfs2 : findSplit ('\n' :: ("commit ").data) ('\n' :: x :: t) = some ([], suf) := by
        rw [findSplit, if_pos hp]
        have hform : ('\n' :: x :: t) = ('\n' :: ("commit ").data) ++ suf := by
          rw [List.cons_append, hxt]
        rw [hform, List.drop_left]
      constructor
      · intro h
        rw [hfs2] at h
        simp at h
      · intro a b h
        rw [hfs2] at h
        simp only [Option.some.injEq, Prod.mk.injEq] at h
        obtain ⟨ha, hb⟩ := h
        have hpf : ("commit ").data.isPrefixOf (x :: t) = true :=
          List.isPrefixOf_iff_prefix.mpr ⟨suf, hxt⟩
        rw [dropToCommitAux, if_pos (And.intro (by decide) hpf), ← hb, ← hxt]
    · have hg : ¬ (decide (c = '\n') = true ∧
          ("commit ").data.isPrefixOf (x :: t) = true) := by
        rintro ⟨h1, h2⟩
        apply hp
        have hc : c = '\n' := of_decide_eq_true h1
        subst hc
        obtain ⟨u, hu⟩ := List.isPrefixOf_iff_prefix.mp h2
        refine List.isPrefixOf_iff_prefix.mpr ⟨u, ?_⟩
        rw [List.cons_append, hu]
      have hstep : dropToCommitAux (decide (c = '\n')) (x :: t) =
          dropToCommitAux (decide (x = '\n')) t := by
        rw [dropToCommitAux, if_neg hg]
      have hmatch : findSplit ('\n' :: ("commit ").data) (c :: x :: t) =
          match findSplit ('\n' :: ("commit ").data) (x :: t) with
          | some (a, b) => some (c :: a, b)
          | none => none := by
        rw [findSplit, if_neg hp]
      constructor
      · intro h
        rw [hstep]
        cases hfc : findSplit ('\n' :: ("commit ").data) (x :: t) with
        | none => exact (ih x).1 hfc
        | some ab =>
          obtain ⟨a2, b2⟩ := ab
          rw [hmatch, hfc] at h
          simp at h
      · intro a b h
        rw [hstep]
        cases hfc : findSplit ('\n' :: ("commit ").data) (x :: t) with
        | none =>
          rw [hmatch, hfc] at h
          simp at h
        | some ab =>
          obtain ⟨a2, b2⟩ := ab
          rw [hmatch, hfc] at h
          simp only [Option.some.injEq, Prod.mk.injEq] at h
          obtain ⟨ha, hb⟩ := h
          rw [← hb]
          exact (ih x).2 a2 b2 hfc

/-- C10 amended: `make_list_from_result` silently discards everything
before the first line of the *whitespace-stripped* input that begins with
`commit `: the parse result equals the parse result of the suffix of the
stripped input starting at that line (leading whitespace is stripped first,
so an initial line with spaces before `commit ` does count, unlike in the
claim's wording); when no line of the stripped input begins with `commit `
— in particular for empty or whitespace-only input — it silently returns
the empty record list instead of raising. -/
theorem c10_discards_text_before_first_commit_line (s : String) :
    CommitMessage.make_list_from_result s =
      CommitMessage.make_list_from_result
        (String.mk (dropToFirstCommit (pyStrip s.data))) ∧
    (hasCommitLineStart (pyStrip s.data) = false →
      CommitMessage.make_list_from_result s = some []) ∧
    ((∀ c ∈ s.data, isPySpace c = true) →
      CommitMessage.make_list_from_result s = some []) := by
  have hm : ("\ncommit ").data = '\n' :: ("commit ").data := rfl
  have hflag : decide (('\n' : Char) = '\n') = true := rfl
  have hEmpty : hasCommitLineStart (pyStrip s.data) = false →
      CommitMessage.make_list_from_result s = some [] := by
    intro hx
    have h1 : ("commit ").data.isPrefixOf (pyStrip s.data) = false ∧
        commitAfterNewlineFree (pyStrip s.data) = true := by
      unfold hasCommitLineStart at hx
      constructor
      · cases hpc : ("commit ").data.isPrefixOf (pyStrip s.data)
        · rfl
        · rw [hpc] at hx; simp at hx
      · cases hfree : commitAfterNewlineFree (pyStrip s.data)
        · rw [hfree] at hx; simp at hx
        · rfl
    have hfsn : findSplit ('\n' :: ("commit ").data) ('\n' :: pyStrip s.data) = none := by
      rw [findSplit]
      have hnp : ¬ (('\n' :: ("commit ").data).isPrefixOf ('\n' :: pyStrip s.data) = true) := by
        intro hpp
        rw [List.isPrefixOf_iff_prefix, List.cons_prefix_cons] at hpp
        have h2 := List.isPrefixOf_iff_prefix.mpr hpp.2
        rw [h1.1] at h2
        cases h2
      rw [if_neg hnp, findSplit_marker_none (pyStrip s.data) h1.2]
    unfold CommitMessage.make_list_from_result CommitMessage.logEntries splitOnMarker
    rw [hm, List.length_cons, splitOnMarkerAux, hfsn]
    rfl
  refine ⟨?_, hEmpty, fun hall => hEmpty (by rw [pyStrip_all_space hall]; rfl)⟩
  cases hfs : findSplit ('\n' :: ("commit ").data) ('\n' :: pyStrip s.data) with
  | none =>
    have h1 : dropToFirstCommit (pyStrip s.data) = [] := by
      unfold dropToFirstCommit
      rw [← hflag]
      exact (dropToCommitAux_findSplit (pyStrip s.data) '\n').1 hfs
    have hL : CommitMessage.make_list_from_result s = some [] := by
      unfold CommitMessage.make_list_from_result CommitMessage.logEntries splitOnMarker
      rw [hm, List.length_cons, splitOnMarkerAux, hfs]
      rfl
    rw [h1, hL]
    decide
  | some ab =>
    obtain ⟨front, r⟩ := ab
    have hG : dropToFirstCommit (pyStrip s.data) = ("commit ").data ++ r := by
      unfold dropToFirstCommit
      rw [← hflag]
      exact (dropToCommitAux_findSplit (pyStrip s.data) '\n').2 front r hfs
    have hdec : '\n' :: pyStrip s.data = front ++ ('\n' :: ("commit ").data) ++ r :=
      findSplit_some_decomp _ _ _ _ hfs
    have hcm7 : ("commit ").data.length = 7 := rfl
    have hlc := congrArg List.length hdec
    simp only [List.length_cons, List.length_append, hcm7] at hlc
    have hxsfix : (pyStrip s.data).reverse.dropWhile isPySpace = (pyStrip s.data).reverse :=
      pyStrip_reverse_fixed s.data
    have hrev : (pyStrip s.data).reverse ++ ['\n'] =
        (r.reverse ++ ("commit ").data.reverse) ++ ('\n' :: front.reverse) := by
      have h0 : ('\n' :: pyStrip s.data).reverse =
          (front ++ ('\n' :: ("commit ").data) ++ r).reverse := by rw [hdec]
      rw [List.reverse_cons, List.reverse_append, List.reverse_append,
        List.reverse_cons] at h0
      rw [h0]
      simp [List.append_assoc, List.singleton_append]
    have hvlen : (r.reverse ++ ("commit ").data.reverse).length ≤
        (pyStrip s.data).reverse.length := by
      rw [List.length_append, List.length_reverse, List.length_reverse,
        List.length_reverse, hcm7]
      omega
    have hvpre : (r.reverse ++ ("commit ").data.reverse) <+: (pyStrip s.data).reverse :=
      List.prefix_of_prefix_length_le ⟨'\n' :: front.reverse, hrev.symm⟩
        (List.prefix_append _ _) hvlen
    obtain ⟨rest, hrest⟩ := hvpre
    rcases hvform : r.reverse ++ ("commit ").data.reverse with _ | ⟨c0, tv⟩
    · rw [List.append_eq_nil] at hvform
      exact absurd hvform.2 (by decide)
    · rw [hvform] at hrest
      have hfix2 : List.dropWhile isPySpace (c0 :: (tv ++ rest)) = c0 :: (tv ++ rest) := by
        have hform : c0 :: (tv ++ rest) = (pyStrip s.data).reverse := by
          rw [← hrest]
          rfl
        rw [hform]
        exact hxsfix
      have hc0 : isPySpace c0 = false := by
        cases hq : isPySpace c0 with
        | false => rfl
        | true =>
          exfalso
          rw [List.dropWhile_cons_of_pos hq] at hfix2
          have hle : (List.dropWhile isPySpace (tv ++ rest)).length ≤ (tv ++ rest).length :=
            (List.dropWhile_sublist isPySpace).length_le
          rw [hfix2, List.length_cons] at hle
          omega
      have hwrev : (("commit ").data ++ r).reverse = c0 :: tv := by
        rw [List.reverse_append]
        exact hvform
      have hneg : ¬ isPySpace c0 = true := by
        rw [hc0]
        exact Bool.false_ne_true
      have hcneg : ¬ isPySpace 'c' = true := by decide
      have hwfix : pyStrip (("commit ").data ++ r) = ("commit ").data ++ r := by
        unfold pyStrip pyRstrip
        have hcons : ("commit ").data ++ r = 'c' :: (("ommit ").data ++ r) := rfl
        rw [hcons, List.dropWhile_cons_of_neg hcneg, ← hcons, hwrev,
          List.dropWhile_cons_of_neg hneg, ← hwrev, List.reverse_reverse]
      have hfs2 : findSplit ('\n' :: ("commit ").data)
          ('\n' :: (("commit ").data ++ r)) = some ([], r) := by
        rw [findSplit]
        have hp2 : ('\n' :: ("commit ").data).isPrefixOf
            ('\n' :: (("commit ").data ++ r)) = true :=
          List.isPrefixOf_iff_prefix.mpr ⟨r, rfl⟩
        rw [if_pos hp2]
        have hform2 : ('\n' :: (("commit ").data ++ r)) =
            ('\n' :: ("commit ").data) ++ r := rfl
        rw [hform2, List.drop_left]
      have hdata : (String.mk (("commit ").data ++ r)).data = ("commit ").data ++ r := rfl
      have hR : CommitMessage.make_list_from_result (String.mk (("commit ").data ++ r)) =
          mapMOpt (fun e => CommitMessage.make (String.mk e))
            (splitOnMarkerAux ('\n' :: ("commit ").data)
              (("commit ").data ++ r).length r) := by
        unfold CommitMessage.make_list_from_result CommitMessage.logEntries splitOnMarker
        rw [hm, hdata, hwfix, List.length_cons, splitOnMarkerAux, hfs2]
        rfl
      have hL : CommitMessage.make_list_from_result s =
          mapMOpt (fun e => CommitMessage.make (String.mk e))
            (splitOnMarkerAux ('\n' :: ("commit ").data) (pyStrip s.data).length r) := by
        unfold CommitMessage.make_list_from_result CommitMessage.logEntries splitOnMarker
        rw [hm, List.length_cons, splitOnMarkerAux, hfs]
        rfl
      have hwlen : (("commit ").data ++ r).length = 7 + r.length := by
        rw [List.length_append, hcm7]
      have hfuel : splitOnMarkerAux ('\n' :: ("commit ").data) (pyStrip s.data).length r =
          splitOnMarkerAux ('\n' :: ("commit ").data) (("commit ").data ++ r).length r :=
        splitOnMarkerAux_ample_fuel (by decide) (pyStrip s.data).length r
          (("commit ").data ++ r).length (by omega) (by omega)
      rw [hL, hG, hR, hfuel]

/-- C10 counterexample: an input whose first line is `  commit abc…` (with
leading spaces, so no line of the input begins with `commit `): the claim
says everything is discarded and the empty list returned, but the leading
strip makes the parser recognise the block and return one record. -/
theorem c10_counterexample :
    ((splitChar '\n' ("  commit abc\nAuthor: Ann\nDate:   2020\n\n    hi\n").data).any
        (fun l => ("commit ").data.isPrefixOf l) = false) ∧
    CommitMessage.make_list_from_result
        "  commit abc\nAuthor: Ann\nDate:   2020\n\n    hi\n" =
      some [⟨"abc", "Ann", "2020", "    hi"⟩] := by
  exact ⟨by decide, by decide⟩

/-- C10 witness: the amended statement evaluated on an input whose text
`intro junk` precedes the only `commit ` line (the parse equals the parse
of the suffix starting at that line, so the leading text is discarded and
exactly one record is returned), on text with no commit line at all, and
on whitespace-only text. -/
theorem c10_witness :
    CommitMessage.make_list_from_result
        "intro junk\ncommit abc\nAuthor: Ann\nDate:   2020\n\n    hi" =
      CommitMessage.make_list_from_result
        (String.mk (dropToFirstCommit
          (pyStrip ("intro junk\ncommit abc\nAuthor: Ann\nDate:   2020\n\n    hi").data))) ∧
    String.mk (dropToFirstCommit
        (pyStrip ("intro junk\ncommit abc\nAuthor: Ann\nDate:   2020\n\n    hi").data)) =
      "commit abc\nAuthor: Ann\nDate:   2020\n\n    hi" ∧
    CommitMessage.make_list_from_result
        "intro junk\ncommit abc\nAuthor: Ann\nDate:   2020\n\n    hi" =
      some [⟨"abc", "Ann", "2020", "    hi"⟩] ∧
    CommitMessage.make_list_from_result "hello\nworld" = some [] ∧
    CommitMessage.make_list_from_result "   \n  " = some [] :=
  ⟨(c10_discards_text_before_first_commit_line
      "intro junk\ncommit abc\nAuthor: Ann\nDate:   2020\n\n    hi").1,
   by decide,
   by decide,
   (c10_discards_text_before_first_commit_line "hello\nworld").2.1 (by decide),
   (c10_discards_text_before_first_commit_line "   \n  ").2.2 (by decide)⟩

/-! ### Claim C9 -/

theorem charListLt_irrefl : ∀ a : List Char, charListLt a a = false := by
  intro a
  induction a with
  | nil => rfl
  | cons x xs ih => simp [charListLt, lt_irrefl, ih]

theorem charListLt_trans :
    ∀ a b c : List Char, charListLt a b = true → charListLt b c = true →
      charListLt a c = true := by
  intro a
  induction a with
  | nil =>
    intro b c hab hbc
    cases b with
    | nil => cases hab
    | cons y ys =>
      cases c with
      | nil => cases hbc
      | cons z zs => rfl
  | cons x xs ih =>
    intro b c hab hbc
    cases b with
    | nil => cases hab
    | cons y ys =>
      cases c with
      | nil => cases hbc
      | cons z zs =>
        rw [charListLt] at hab hbc ⊢
        rcases lt_trichotomy x y with hxy | hxy | hxy
        · rcases lt_trichotomy y z with hyz | hyz | hyz
          · rw [if_pos (lt_trans hxy hyz)]
          · subst hyz; rw [if_pos hxy]
          · rw [if_pos hyz, if_neg (lt_asymm hyz)] at hbc; cases hbc
        · subst hxy
          rcases lt_trichotomy x z with hxz | hxz | hxz
          · rw [if_pos hxz]
          · subst hxz
            rw [if_neg (lt_irrefl x), if_neg (lt_irrefl x)] at hab hbc ⊢
            exact ih ys zs hab hbc
          · rw [if_pos hxz, if_neg (lt_asymm hxz)] at hbc; cases hbc
        · rw [if_pos hxy, if_neg (lt_asymm hxy)] at hab; cases hab

theorem charListLt_trichotomy :
    ∀ a b : List Char, charListLt a b = true ∨ a = b ∨ charListLt b a = true := by
  intro a
  induction a with
  | nil =>
    intro b
    cases b with
    | nil => exact Or.inr (Or.inl rfl)
    | cons y ys => exact Or.inl rfl
  | cons x xs ih =>
    intro b
    cases b with
    | nil => exact Or.inr (Or.inr rfl)
    | cons y ys =>
      rcases lt_trichotomy x y with h | h | h
      · left; rw [charListLt, if_pos h]
      · subst h
        rcases ih ys with h1 | h1 | h1
        · left; rw [charListLt, if_neg (lt_irrefl x), if_neg (lt_irrefl x)]; exact h1
        · subst h1; right; left; rfl
        · right; right
          rw [charListLt, if_neg (lt_irrefl x), if_neg (lt_irrefl x)]
          exact h1
      · right; right; rw [charListLt, if_pos h]

theorem strLeb_total {a b : String} (h : strLeb a b = false) : strLeb b a = true := by
  unfold strLeb strLtb at h ⊢
  have hba : charListLt b.data a.data = true := by
    cases hh : charListLt b.data a.data with
    | true => rfl
    | false => rw [hh] at h; simp at h
  cases hab : charListLt a.data b.data with
  | false => rfl
  | true =>
    have hcontra := charListLt_trans _ _ _ hab hba
    rw [charListLt_irrefl] at hcontra
    simp at hcontra

theorem strLeb_trans {a b c : String}
    (hab : strLeb a b = true) (hbc : strLeb b c = true) : strLeb a c = true := by
  unfold strLeb strLtb at hab hbc ⊢
  have hba : charListLt b.data a.data = false := by
    cases hh : charListLt b.data a.data with
    | false => rfl
    | true => rw [hh] at hab; simp at hab
  have hcb : charListLt c.data b.data = false := by
    cases hh : charListLt c.data b.data with
    | false => rfl
    | true => rw [hh] at hbc; simp at hbc
  cases hca : charListLt c.data a.data with
  | false => rfl
  | true =>
    exfalso
    rcases charListLt_trichotomy a.data b.data with h1 | h1 | h1
    · have hcb' := charListLt_trans _ _ _ hca h1
      rw [hcb] at hcb'
      simp at hcb'
    · rw [h1] at hca
      rw [hca] at hcb
      simp at hcb
    · rw [h1] at hba
      simp at hba

theorem mem_insertTag {ct x : CommitTag} :
    ∀ l, x ∈ insertTag ct l ↔ x = ct ∨ x ∈ l := by
  intro l
  induction l with
  | nil => simp [insertTag]
  | cons d ds ih =>
    rw [insertTag]
    by_cases hle : strLeb ct.tag d.tag = true
    · rw [if_pos hle]
      simp [List.mem_cons]
    · rw [if_neg hle]
      simp only [List.mem_cons, ih]
      tauto

theorem insertTag_pairwise {ct : CommitTag} :
    ∀ l, List.Pairwise (fun a b : CommitTag => strLeb a.tag b.tag = true) l →
      List.Pairwise (fun a b : CommitTag => strLeb a.tag b.tag = true) (insertTag ct l) := by
  intro l
  induction l with
  | nil => intro _; simp [insertTag]
  | cons d ds ih =>
    intro hp
    rw [List.pairwise_cons] at hp
    obtain ⟨hd, hds⟩ := hp
    rw [insertTag]
    by_cases hle : strLeb ct.tag d.tag = true
    · rw [if_pos hle]
      rw [List.pairwise_cons]
      refine ⟨?_, List.pairwise_cons.mpr ⟨hd, hds⟩⟩
      intro x hx
      rcases List.mem_cons.mp hx with h | h
      · subst h; exact hle
      · exact strLeb_trans hle (hd x h)
    · rw [if_neg hle]
      rw [List.pairwise_cons]
      refine ⟨?_, ih hds⟩
      intro x hx
      rcases mem_insertTag _ |>.mp hx with h | h
      · subst h
        exact strLeb_total (by simpa using hle)
      · exact hd x h

theorem sortTags_pairwise :
    ∀ l, List.Pairwise (fun a b : CommitTag => strLeb a.tag b.tag = true) (sortTags l) := by
  intro l
  induction l with
  | nil => simp [sortTags]
  | cons ct t ih => exact insertTag_pairwise _ ih

theorem mem_sortTags {x : CommitTag} : ∀ l, x ∈ sortTags l ↔ x ∈ l := by
  intro l
  induction l with
  | nil => simp [sortTags]
  | cons ct t ih =>
    show x ∈ insertTag ct (sortTags t) ↔ _
    rw [mem_insertTag, ih]
    simp [List.mem_cons, eq_comm]

theorem foldl_upsert_some :
    ∀ (l : List CommitTag) (m : String → Option String) (k t : String),
      (l.foldl (fun m ct => fun k' => if k' = ct.commit_id then some ct.tag else m k') m) k =
        some t →
      (∃ ct ∈ l, ct.commit_id = k ∧ ct.tag = t) ∨ m k = some t := by
  intro l
  induction l with
  | nil => intro m k t h; exact Or.inr h
  | cons ct0 t' ih =>
    intro m k t h
    rw [List.foldl_cons] at h
    rcases ih _ k t h with ⟨ct, hmem, hid, htag⟩ | hbase
    · exact Or.inl ⟨ct, List.mem_cons_of_mem ct0 hmem, hid, htag⟩
    · by_cases hk : k = ct0.commit_id
      · rw [if_pos hk] at hbase
        cases hbase
        exact Or.inl ⟨ct0, List.mem_cons_self ct0 t', hk.symm, rfl⟩
      · rw [if_neg hk] at hbase
        exact Or.inr hbase

theorem foldl_upsert_max :
    ∀ (l : List CommitTag) (m : String → Option String) (k t : String),
      List.Pairwise (fun a b : CommitTag => strLeb a.tag b.tag = true) l →
      (l.foldl (fun m ct => fun k' => if k' = ct.commit_id then some ct.tag else m k') m) k =
        some t →
      ∀ ct ∈ l, ct.commit_id = k → strLeb ct.tag t = true := by
  intro l
  induction l with
  | nil => intro m k t _ _ ct hmem; cases hmem
  | cons ct0 t' ih =>
    intro m k t hp h ct hmem hid
    rw [List.pairwise_cons] at hp
    obtain ⟨hd, hds⟩ := hp
    rw [List.foldl_cons] at h
    rcases List.mem_cons.mp hmem with he | hmem'
    · subst he
      rcases foldl_upsert_some t' _ k t h with ⟨ct', hmem', hid', htag'⟩ | hbase
      · rw [← htag']
        exact hd ct' hmem'
      · rw [if_pos hid.symm] at hbase
        cases hbase
        unfold strLeb
        rw [strLtb, charListLt_irrefl]
        rfl
    · exact ih _ k t hds h ct hmem' hid

theorem foldl_upsert_isSome :
    ∀ (l : List CommitTag) (m : String → Option String) (k : String),
      ((∃ ct ∈ l, ct.commit_id = k) ∨ (m k).isSome = true) →
      ((l.foldl (fun m ct => fun k' => if k' = ct.commit_id then some ct.tag else m k') m)
        k).isSome = true := by
  intro l
  induction l with
  | nil =>
    intro m k h
    rcases h with ⟨ct, hmem, _⟩ | h
    · cases hmem
    · exact h
  | cons ct0 t' ih =>
    intro m k h
    rw [List.foldl_cons]
    rcases h with ⟨ct, hmem, hid⟩ | hbase
    · rcases List.mem_cons.mp hmem with he | hmem'
      · subst he
        apply ih
        right
        rw [if_pos hid.symm]
        rfl
      · exact ih _ k (Or.inl ⟨ct, hmem', hid⟩)
    · apply ih
      right
      by_cases hk : k = ct0.commit_id
      · rw [if_pos hk]; rfl
      · rw [if_neg hk]; exact hbase

/-- C9: in the commit-id-to-tag map built by
`query_local_repository_commits_to_existing_tag_from_id`, a commit id that
appears in several tag records is mapped to the lexicographically greatest
(by code point, Python string order) tag text among its records — the
ascending `sorted` iteration lets later, greater tags overwrite earlier
ones — which is not necessarily the numerically newest version; and every
id present in the records is mapped. -/
theorem c9_id_to_newest_tag_lexicographic_max (tags : List CommitTag) (k : String) :
    (∀ t, id_to_newest_tag tags k = some t →
      (∃ ct ∈ tags, ct.commit_id = k ∧ ct.tag = t) ∧
      (∀ ct ∈ tags, ct.commit_id = k → strLeb ct.tag t = true)) ∧
    ((∃ ct ∈ tags, ct.commit_id = k) → (id_to_newest_tag tags k).isSome = true) := by
  constructor
  · intro t h
    unfold id_to_newest_tag at h
    constructor
    · rcases foldl_upsert_some (sortTags tags) _ k t h with ⟨ct, hmem, hid, htag⟩ | hbase
      · exact ⟨ct, (mem_sortTags tags).mp hmem, hid, htag⟩
      · cases hbase
    · intro ct hmem hid
      exact foldl_upsert_max (sortTags tags) _ k t (sortTags_pairwise tags) h
        ct ((mem_sortTags tags).mpr hmem) hid
  · rintro ⟨ct, hmem, hid⟩
    unfold id_to_newest_tag
    exact foldl_upsert_isSome (sortTags tags) _ k
      (Or.inl ⟨ct, (mem_sortTags tags).mpr hmem, hid⟩)

/-- C9 witness: two tags on the same commit id; the map chooses
`release-9.0.0` over `release-10.0.0` because `9` sorts above `1`
lexicographically, although 10.0.0 is the numerically newer version. -/
theorem c9_witness :
    (∃ ct ∈ [(⟨"A", "release-10.0.0", "release-10.0.0"⟩ : CommitTag),
             ⟨"A", "release-9.0.0", "release-9.0.0"⟩],
      ct.commit_id = "A" ∧ ct.tag = "release-9.0.0") ∧
    (∀ ct ∈ [(⟨"A", "release-10.0.0", "release-10.0.0"⟩ : CommitTag),
             ⟨"A", "release-9.0.0", "release-9.0.0"⟩],
      ct.commit_id = "A" → strLeb ct.tag "release-9.0.0" = true) :=
  (c9_id_to_newest_tag_lexicographic_max
      [⟨"A", "release-10.0.0", "release-10.0.0"⟩, ⟨"A", "release-9.0.0", "release-9.0.0"⟩]
      "A").1 "release-9.0.0" (by decide)

/-! ### Claim C1 -/

theorem query_messages_are_raw_parse (commit_id : String)
    (commit_tags : List CommitTag) (log_oneline : String)
    (log_medium : Nat → String) (tag : String) (msgs : List CommitMessage)
    (h : query_local_repository_commits_to_existing_tag_from_id
      commit_id commit_tags log_oneline log_medium = some (tag, msgs))
    (hne : msgs ≠ []) :
    ∃ n, CommitMessage.make_list_from_result (log_medium n) = some msgs := by
  unfold query_local_repository_commits_to_existing_tag_from_id at h
  dsimp only at h
  cases hmap : id_to_newest_tag commit_tags commit_id with
  | some t =>
    rw [hmap] at h
    cases h
    exact absurd rfl hne
  | none =>
    rw [hmap] at h
    cases hwalk : baselineWalk (id_to_newest_tag commit_tags)
        (splitChar '\n' log_oneline.data) 0 none with
    | none => rw [hwalk] at h; cases h
    | some pr =>
      obtain ⟨t, count⟩ := pr
      rw [hwalk] at h
      dsimp only at h
      cases hparse : CommitMessage.make_list_from_result (log_medium count) with
      | none => rw [hparse] at h; cases h
      | some messages =>
        rw [hparse] at h
        cases h
        exact ⟨count, hparse⟩

/-- C1 amended: the assembler does not run the records through the
Normalizer (`normalize_message_list` is never invoked): when the summary
carries pending commits, its `commit_messages` list is exactly the raw
output of the Parser (`make_list_from_result`) on the medium log — compound
records and all — and it is this raw list that aggregate severity
classification receives. -/
theorem c1_summary_commits_are_unnormalized_parse (git : GitView)
    (s : RepositorySummary) (h : collect_repository_summary git = some s)
    (hne : s.commit_messages ≠ []) :
    ∃ n, CommitMessage.make_list_from_result (git.log_medium n) =
      some s.commit_messages := by
  unfold collect_repository_summary at h
  cases hq : query_tag_commits git.show_ref_tags versionTagMatch with
  | none => rw [hq] at h; cases h
  | some all_tags =>
    rw [hq] at h
    dsimp only at h
    cases hql : query_local_repository_commits_to_existing_tag_from_id
        git.head_id all_tags git.log_oneline git.log_medium with
    | none => rw [hql] at h; cases h
    | some pr =>
      obtain ⟨tag, msgs⟩ := pr
      rw [hql] at h
      dsimp only at h
      cases hmk : SemanticVersion.make tag with
      | error e => rw [hmk] at h; cases h
      | ok current_semver =>
        rw [hmk] at h
        dsimp only at h
        by_cases hm : msgs = []
        · rw [if_pos hm] at h
          cases h
          exact absurd hm hne
        · rw [if_neg hm] at h
          cases hdet : CommitMessage.determine_semver_implication_on_list msgs
              CommitMessage.DEFAULT_MAJOR_REGEXS CommitMessage.DEFAULT_MINOR_REGEXS
              CommitMessage.DEFAULT_PATCH_REGEXS SemanticVersion.MINOR_INDEX with
          | none => rw [hdet] at h; cases h
          | some sig =>
            rw [hdet] at h
            dsimp only at h
            cases hnext : current_semver.next sig with
            | none => rw [hnext] at h; cases h
            | some next_semver =>
              rw [hnext] at h
              cases h
              exact query_messages_are_raw_parse git.head_id all_tags
                git.log_oneline git.log_medium tag msgs hql hm

/-- C1 counterexample: a repository state whose one pending commit bundles a
`fix` and a `feat` summary.  The summary's commits list is the single raw
parsed record, while the Normalizer would have produced two records — so
the commits list is not the normalized record list the claim describes. -/
theorem c1_counterexample :
    (collect_repository_summary exGitView).map (fun s => s.commit_messages) =
      some [exCompound] ∧
    CommitMessage.normalize_message_list [exCompound] =
      some [⟨"bbb", "Ann", "2020", "    fix(a): one"⟩,
            ⟨"bbb", "Ann", "2020", "    feat(b): two"⟩] ∧
    ([exCompound] : List CommitMessage) ≠
      [⟨"bbb", "Ann", "2020", "    fix(a): one"⟩,
       ⟨"bbb", "Ann", "2020", "    feat(b): two"⟩] := by
  exact ⟨by decide, by decide, by decide⟩

/-- C1 witness: the amended statement evaluated on the example repository
view: the summary's commits list is the raw one-record parse of the medium
log. -/
theorem c1_witness :
    ∃ n, CommitMessage.make_list_from_result (exGitView.log_medium n) =
      some [exCompound] :=
  c1_summary_commits_are_unnormalized_parse exGitView
    ⟨"bbb", "version-1.1.0", "1.1.0", [exCompound]⟩ (by decide) (by decide)
